import Mathlib

/-!
The frame relay core of mjpg-v2c.

A shallow embedding of `src/main.go`: the frame chain written by `readStream`,
the completion wait `Frame.waitComplete`, the sampler `statistics`, and the two
HTTP handlers `/frame.mjpg` and `/frame.jpeg`.

Pointers to `Frame` are indices into a list of allocated frames (`nil` is
`none`); `&Frame{}` appends a zero frame. Go `int` counters are `Int`: the
counters only grow by payload lengths, so they leave the 64 bit range only
after 2^63 received bytes. A dereference of `nil` is the result `none`.
-/

namespace MjpgV2c

/-- One octet of a Go `[]byte` or `string`, by its value. No arithmetic is done on payload bytes. -/
abbrev Byte := Nat

/-- Go strings are sequences of bytes. -/
abbrev GoString := List Byte

/-- The bytes of an ASCII literal. -/
def bytesOf (s : String) : GoString := s.data.map Char.toNat

/-- The struct `Frame` (main.go 39-46); `Next` is a pointer. -/
structure Frame where
  Number : Int
  Complete : Bool
  Damaged : Bool
  Data : List Byte
  LastChunk : Int
  Next : Option Nat
deriving DecidableEq

/-- The zero value `Frame{}`. -/
def Frame.zero : Frame := ⟨0, false, false, [], 0, none⟩

/-- The struct `Device` (main.go 25-37). `FrameConfig` and `LastFrameTime` are left out:
they are written only by the image decoder and never read by the code modelled here.
The `int` fields are `Int`: they only grow, by 1 or by a payload length, and stay inside the
64 bit range up to 2^63 received bytes. `FPS` and `BPS` hold the integer value of the
`float32`. -/
structure Device where
  Frame : Option Nat
  Url : GoString
  RxBytes : Int
  RxBytesLast : Int
  RxFrames : Int
  RxFramesLast : Int
  ChunksLost : Int
  FPS : Int
  BPS : Int
deriving DecidableEq

/-- The allocated frames and the global `device`. -/
structure State where
  heap : List Frame
  device : Device
deriving DecidableEq

/-- The state built by `main` (main.go 122-125): `&Device{Url: os.Args[1], Frame: &Frame{}}`. -/
def initState (url : GoString) : State :=
  ⟨[Frame.zero], ⟨some 0, url, 0, 0, 0, 0, 0, 0, 0⟩⟩

/-- Write through a frame pointer: `none` when the pointer is not a live frame. -/
def writeFrame (h : List Frame) (p : Nat) (g : Frame → Frame) : Option (List Frame) :=
  match h[p]? with
  | none => none
  | some f => some (h.set p (g f))

/-- The value of `float32(x)` for an integer `x`: the nearest number with a 24 bit
significand, ties to even. Exact below 2^24. -/
def float32 (x : Int) : Int :=
  let a := x.natAbs
  if a < 2 ^ 24 then x
  else
    let e := Nat.log2 a - 23
    let q := a / 2 ^ e
    let r := a % 2 ^ e
    let half := 2 ^ (e - 1)
    let q1 := if half < r ∨ (r = half ∧ q % 2 = 1) then q + 1 else q
    Int.sign x * ((q1 * 2 ^ e : Nat) : Int)

/-! ## readStream: one loop iteration, line by line (main.go 90-96) -/

/-- Line 90, `device.Frame.Next = &Frame{}`. -/
def line90 (s : State) : Option State :=
  match s.device.Frame with
  | none => none
  | some p =>
    let q := s.heap.length
    match writeFrame (s.heap ++ [Frame.zero]) p (fun f => { f with Next := some q }) with
    | none => none
    | some h => some { s with heap := h }

/-- Line 91, `device.Frame.Data = data`. -/
def line91 (data : List Byte) (s : State) : Option State :=
  match s.device.Frame with
  | none => none
  | some p =>
    match writeFrame s.heap p (fun f => { f with Data := data }) with
    | none => none
    | some h => some { s with heap := h }

/-- Line 92, `device.Frame.Complete = true`. -/
def line92 (s : State) : Option State :=
  match s.device.Frame with
  | none => none
  | some p =>
    match writeFrame s.heap p (fun f => { f with Complete := true }) with
    | none => none
    | some h => some { s with heap := h }

/-- Line 93, `device.Frame = device.Frame.Next`. -/
def line93 (s : State) : Option State :=
  match s.device.Frame with
  | none => none
  | some p =>
    match s.heap[p]? with
    | none => none
    | some f => some { s with device := { s.device with Frame := f.Next } }

/-- Line 94, `device.RxFrames++`. -/
def line94 (s : State) : Option State :=
  some { s with device := { s.device with RxFrames := s.device.RxFrames + 1 } }

/-- Line 95, `device.RxBytesLast = len(data)`. -/
def line95 (data : List Byte) (s : State) : Option State :=
  some { s with device := { s.device with RxBytesLast := (data.length : Int) } }

/-- Line 96, `device.RxBytes += device.RxBytesLast`. -/
def line96 (s : State) : Option State :=
  some { s with device := { s.device with RxBytes := s.device.RxBytes + s.device.RxBytesLast } }

/-- The seven statements of the loop body after `data` has been read, in program order. -/
def ingestLines (data : List Byte) : List (State → Option State) :=
  [line90, line91 data, line92, line93, line94, line95 data, line96]

/-- Run statements in order; `none` as soon as one dereferences `nil`. -/
def runLines : List (State → Option State) → State → Option State
  | [], s => some s
  | l :: ls, s => (l s).bind (runLines ls)

/-- One whole ingestion step: the loop body of `readStream` for one part (main.go 90-96). -/
def ingest (data : List Byte) (s : State) : Option State :=
  runLines (ingestLines data) s

/-- One iteration of `statistics` (main.go 223-226). The goroutine it starts writes
`FrameConfig` only. -/
def statistics (s : State) : State :=
  let d := s.device
  { s with device :=
      { d with
        BPS := float32 (d.RxBytes - d.RxBytesLast)
        FPS := float32 (d.RxFrames - d.RxFramesLast)
        RxBytesLast := d.RxBytes
        RxFramesLast := d.RxFrames } }

/-- A whole step of the producer or of the sampler. -/
inductive Step where
  | ingest (data : List Byte)
  | sample
deriving DecidableEq

/-- Run one whole step. -/
def execStep : Step → State → Option State
  | .ingest data, s => ingest data s
  | .sample, s => some (statistics s)

/-- Run an interleaving of whole steps. -/
def exec : List Step → State → Option State
  | [], s => some s
  | st :: rest, s => (execStep st s).bind (exec rest)

/-- The payloads ingested by an interleaving, in order. -/
def partsOf : List Step → List (List Byte)
  | [] => []
  | .ingest data :: rest => data :: partsOf rest
  | .sample :: rest => partsOf rest

/-- The sum of the lengths of a list of payloads. -/
def totalLen (parts : List (List Byte)) : Int :=
  (parts.map (fun p => (p.length : Int))).sum

/-- Follow `Next` from a pointer, collecting the frames met. -/
def chainFrom (h : List Frame) : Nat → Option Nat → List Frame
  | 0, _ => []
  | _, none => []
  | fuel + 1, some p =>
    match h[p]? with
    | none => []
    | some f => f :: chainFrom h fuel f.Next

/-- Follow `Next` from a pointer, collecting the pointers met. -/
def chainPtrs (h : List Frame) : Nat → Option Nat → List Nat
  | 0, _ => []
  | _, none => []
  | fuel + 1, some p =>
    match h[p]? with
    | none => []
    | some f => p :: chainPtrs h fuel f.Next

/-! ## Frame.waitComplete (main.go 48-56) -/

/-- How a call of `waitComplete` ends. `sleeps` counts the `time.Sleep(time.Millisecond)`
calls made before it. -/
inductive WaitResult where
  | returnedNil (sleeps : Nat)
  | timedOut (sleeps : Nat)
  | stillWaiting
deriving DecidableEq

/-- The loop `for i := 0; i < ms || ms == 0; i++` from iteration `i` on. `obs i` is the value
of `f.Complete` read at poll `i` (polls are numbered from 0); `fuel` bounds the number of polls
looked at. With `ms == 0` the loop condition holds whatever `i` is, so the wrap of `i` plays
no part. -/
def waitLoop (obs : Nat → Bool) (ms : Int) : Nat → Nat → WaitResult
  | 0, _ => .stillWaiting
  | fuel + 1, i =>
    if (i : Int) < ms ∨ ms = 0 then
      if obs i then .returnedNil i
      else waitLoop obs ms fuel (i + 1)
    else .timedOut i

/-- The method `Frame.waitComplete(ms)` over the values of `Complete` it observes. -/
def waitComplete (obs : Nat → Bool) (ms : Int) (fuel : Nat) : WaitResult :=
  waitLoop obs ms fuel 0

/-- The field `Complete` read through a pointer (a pointer of the model is always live). -/
def frameComplete (s : State) (p : Nat) : Bool :=
  match s.heap[p]? with
  | some f => f.Complete
  | none => false

/-- The field `Data` read through a pointer. -/
def frameData (s : State) (p : Nat) : List Byte :=
  match s.heap[p]? with
  | some f => f.Data
  | none => []

/-! ## The HTTP handlers (main.go 134-195) -/

/-- What a handler sends: `c.String`, `c.Data`, or nothing yet (`pending`, the polls looked
at did not suffice). -/
inductive Response where
  | text (code : Nat) (body : GoString)
  | data (code : Nat) (contentType : GoString) (body : List Byte)
  | pending
deriving DecidableEq

/-- The handler of `/frame.jpeg` (main.go 184-195). `world i` is the shared state at the
time of poll `i` of the wait; the value returned by `waitComplete` is dropped by the
handler, so both ways out of the wait send `frame.Data`. -/
def frameJpeg (world : Nat → State) (fuel : Nat) : Response :=
  match (world 0).device.Frame with
  | none => .text 404 (bytesOf "No frames received")
  | some p =>
    match waitComplete (fun i => frameComplete (world i) p) 1000 fuel with
    | .stillWaiting => .pending
    | .returnedNil k => .data 200 (bytesOf "image/jpeg") (frameData (world k) p)
    | .timedOut k => .data 200 (bytesOf "image/jpeg") (frameData (world k) p)

/-- Decimal digits to a number; `none` on an empty string or a byte that is no digit. -/
def parseDigits : List Byte → Option Nat → Option Nat
  | [], acc => acc
  | b :: bs, acc =>
    if 48 ≤ b ∧ b ≤ 57 then parseDigits bs (some (acc.getD 0 * 10 + (b - 48)))
    else none

/-- The library function `strconv.Atoi` for a 64 bit `int`: the value and whether `err == nil`.
A syntax error gives 0, a value out of range gives the nearest bound. -/
def Atoi (s : GoString) : Int × Bool :=
  match s with
  | [] => (0, false)
  | c :: rest =>
    let neg := c = 45
    let digits := if c = 45 ∨ c = 43 then rest else s
    match parseDigits digits none with
    | none => (0, false)
    | some n =>
      if neg then (if 2 ^ 63 < n then (-(2 ^ 63), false) else (-(n : Int), true))
      else (if 2 ^ 63 ≤ n then (2 ^ 63 - 1, false) else ((n : Int), true))

/-- Lines 144-148: `ifd` in nanoseconds, from the result of `Atoi`. `1000/fps` is Go integer
division, which truncates toward zero. -/
def ifdOf (fps : Int) (errNil : Bool) : Int :=
  if 0 < fps ∧ errNil = true then Int.tdiv 1000 fps * 1000000 else 0

/-- The value of `ifd` for a request: `c.DefaultQuery("fps", "0")` is the value of the query
key when present and `"0"` otherwise. -/
def queryIfd (fps : Option GoString) : Int :=
  let r := Atoi (fps.getD (bytesOf "0"))
  ifdOf r.1 r.2

/-- The local state of one `/frame.mjpg` stream loop: the variable `frame` and the bytes
handed to `w.Write` so far. -/
structure Consumer where
  frame : Option Nat
  out : List Byte
deriving DecidableEq

/-- The bytes of one `w.Write` call (main.go 163-165). -/
def partBytes (data : List Byte) : List Byte :=
  bytesOf "--myboundary\r\nContent-Type: image/jpeg\r\n\r\n" ++ (data ++ bytesOf "\r\n")

/-- The head of the `/frame.mjpg` handler (main.go 137-150): 404 when `device.Frame` is nil,
else the stream starts with cursor `device.Frame`. -/
def frameMjpg (s : State) : Response ⊕ Consumer :=
  match s.device.Frame with
  | none => .inl (.text 404 (bytesOf "No frames received"))
  | some p => .inr ⟨some p, []⟩

/-- One poll of the stream loop (main.go 158-177) against the shared state `s`. A poll of
`frame.waitComplete(0)` that reads `Complete == false` sleeps and leaves the consumer as it
is; the poll that reads `true` is followed by the rest of the loop body: the write unless
`Damaged`, then `frame = device.Frame` when `ifd > 0` and `frame = frame.Next` otherwise.
`none` is the dereference of a nil `frame`. -/
def consumerStep (ifd : Int) (s : State) (c : Consumer) : Option Consumer :=
  match c.frame with
  | none => none
  | some p =>
    match s.heap[p]? with
    | none => none
    | some f =>
      if f.Complete then
        let out := if f.Damaged then c.out else c.out ++ partBytes f.Data
        let next := if 0 < ifd then s.device.Frame else f.Next
        some ⟨next, out⟩
      else some c

/-! ## readStream as a whole (main.go 58-98) -/

/-- What `mr.NextPart()` followed by `ioutil.ReadAll(p)` yields for one part. -/
inductive PartEvent where
  | part (data : List Byte)
  | nextPartErr
  | readAllErr
deriving DecidableEq

/-- How `readStream` ends: a plain `return`, `log.Fatal`, or a run-time panic. The last two
end the process. -/
inductive Exit where
  | returned
  | fatal
  | panicked
deriving DecidableEq

/-- The response of `http.Get`. `contentType` is `resp.Header.Get("Content-Type")`, empty
when the header is missing; `body b` lists what the multipart reader built with boundary
`b` yields, the end of the list being `io.EOF`. -/
structure Upstream where
  contentType : GoString
  body : GoString → List PartEvent

/-- The loop of `readStream` (main.go 78-97). -/
def readLoop : List PartEvent → State → Exit × State
  | [], s => (.returned, s)
  | .nextPartErr :: _, s => (.fatal, s)
  | .readAllErr :: _, s => (.fatal, s)
  | .part data :: rest, s =>
    match ingest data s with
    | none => (.panicked, s)
    | some s1 => readLoop rest s1

/-- A Go map lookup: the zero value `""` for a missing key. -/
def mapGet (m : List (GoString × GoString)) (key : GoString) : GoString :=
  match m.find? (fun kv => kv.1 = key) with
  | some kv => kv.2
  | none => []

/-- The function `readStream` (main.go 58-98). `parseMediaType` stands for the library
function `mime.ParseMediaType` (`none` is `err != nil`, else the parameter map); `resp` is
`none` when `http.Get` failed, in which case `resp.Body` dereferences nil. The slice
expression `[2:]` panics on a string shorter than 2. -/
def readStream (parseMediaType : GoString → Option (List (GoString × GoString)))
    (resp : Option Upstream) (s : State) : Exit × State :=
  match resp with
  | none => (.panicked, s)
  | some r =>
    if r.contentType.length < 1 then (.returned, s)
    else
      match parseMediaType r.contentType with
      | none => (.returned, s)
      | some params =>
        let b := mapGet params (bytesOf "boundary")
        if b.length < 2 then (.panicked, s)
        else readLoop (r.body (b.drop 2)) s

/-! ## Producer, sampler and one consumer, interleaved statement by statement -/

/-- The goroutine `readStream` between two statements of its loop. `cur` is the part read by
lines 79-89 with the number of statements of lines 90-96 already run for it, `none` at the
top of the loop; `upstream` lists the parts the upstream has still to deliver. -/
structure Producer where
  cur : Option (List Byte × Nat)
  upstream : List (List Byte)
deriving DecidableEq

/-- One statement of `readStream`. At the top of the loop the next part is read; with nothing
left to deliver the goroutine stays in `mr.NextPart()` (or has returned on `io.EOF`). With a
part read, the next of the seven statements of lines 90-96 runs; after the seventh the loop
is at its top again. -/
def producerStep (s : State) (pr : Producer) : Option (State × Producer) :=
  match pr.cur with
  | none =>
    match pr.upstream with
    | [] => some (s, pr)
    | data :: rest => some (s, ⟨some (data, 0), rest⟩)
  | some (data, k) =>
    match (ingestLines data)[k]? with
    | none => some (s, ⟨none, pr.upstream⟩)
    | some l =>
      match l s with
      | none => none
      | some s1 => some (s1, ⟨if k + 1 < 7 then some (data, k + 1) else none, pr.upstream⟩)

/-- Who moves next. `marker` stands for a writer of the field `Damaged`: nothing in `main.go`
writes that field, and the marker is there so that frames with `Damaged == true` can be put
in front of the consumer. -/
inductive Thread where
  | producer
  | sampler
  | marker
  | consumer
deriving DecidableEq

/-- The shared state, the producer and one consumer. -/
structure Sys where
  state : State
  producer : Producer
  client : Consumer
deriving DecidableEq

/-- Set `Damaged` on the frame at `device.Frame` unless that frame is already complete: a
frame is marked while it is being filled, not after it is published. -/
def markDamaged (s : State) : State :=
  match s.device.Frame with
  | none => s
  | some p =>
    match s.heap[p]? with
    | none => s
    | some f =>
      if f.Complete then s
      else { s with heap := s.heap.set p { f with Damaged := true } }

/-- One move: a statement of `readStream`, an iteration of `statistics` (its statements touch
the counters only), a marking, or a poll of the stream loop. What a poll reads after it has
seen `Complete == true` (`Damaged`, `Data`, `Next` of that frame) is written before line 92
and by no move after it, so the poll is taken as one move. -/
def sysStep (ifd : Int) : Thread → Sys → Option Sys
  | .producer, y => (producerStep y.state y.producer).map (fun r => ⟨r.1, r.2, y.client⟩)
  | .sampler, y => some ⟨statistics y.state, y.producer, y.client⟩
  | .marker, y => some ⟨markDamaged y.state, y.producer, y.client⟩
  | .consumer, y => (consumerStep ifd y.state y.client).map (fun c => ⟨y.state, y.producer, c⟩)

/-- Run a schedule. -/
def sysRun (ifd : Int) : List Thread → Sys → Option Sys
  | [], y => some y
  | t :: ts, y => (sysStep ifd t y).bind (sysRun ifd ts)

/-- The frames with `Complete == true` on the chain walked from `start`, in chain order. -/
def publishedFrames (s : State) (start : Option Nat) : List Frame :=
  (chainFrom s.heap s.heap.length start).filter (fun f => f.Complete)

/-- The part the specification names for a payload, byte by byte: `--myboundary` CR LF
`Content-Type: image/jpeg` CR LF CR LF, the payload, CR LF. -/
def claimedPart (payload : List Byte) : List Byte :=
  [45, 45, 109, 121, 98, 111, 117, 110, 100, 97, 114, 121, 13, 10,
   67, 111, 110, 116, 101, 110, 116, 45, 84, 121, 112, 101, 58, 32,
   105, 109, 97, 103, 101, 47, 106, 112, 101, 103, 13, 10, 13, 10] ++ payload ++ [13, 10]

/-- The output the specification names for a list of frames: the parts of the frames that
are not damaged, concatenated in order. -/
def claimedOutput (frames : List Frame) : List Byte :=
  ((frames.filter (fun f => !f.Damaged)).map (fun f => claimedPart f.Data)).flatten

/-- The bytes a consumer of every frame must have written: the parts of the frames that are
not damaged, in order. -/
def expectedOut : List (List Byte × Bool) → List Byte
  | [] => []
  | (data, dmg) :: rest => (if dmg then [] else partBytes data) ++ expectedOut rest

/-! ## The shape of the chain -/

/-- The frame at position `i` once published with payload `x.1` and flag `x.2`. -/
def pubFrame (i : Nat) (x : List Byte × Bool) : Frame :=
  ⟨0, true, x.2, x.1, 0, some (i + 1)⟩

/-- Published frames laid out from position `i` on. -/
def pubFrames : Nat → List (List Byte × Bool) → List Frame
  | _, [] => []
  | i, x :: xs => pubFrame i x :: pubFrames (i + 1) xs

/-- The frame being filled. -/
def tailFrame (tf : Bool) : Frame :=
  ⟨0, false, tf, [], 0, none⟩

/-- The heap after the frames `fs` have been published. -/
def chainHeap (fs : List (List Byte × Bool)) (tf : Bool) : List Frame :=
  pubFrames 0 fs ++ [tailFrame tf]

/-- The device after one whole ingestion step that moved `device.Frame` to `p`. -/
def ingestDevice (d : Device) (p : Nat) (data : List Byte) : Device :=
  { d with Frame := some p, RxFrames := d.RxFrames + 1,
           RxBytesLast := (data.length : Int),
           RxBytes := d.RxBytes + (data.length : Int) }

/-- The heap while the producer is inside the loop body: after line 90 and after line 91 the
frame being filled has its `Next` set and a fresh frame follows it; everywhere else the heap
is chain-shaped. -/
def midHeap (fs : List (List Byte × Bool)) (tf : Bool) : Option (List Byte × Nat) → List Frame
  | some (_, 1) =>
    pubFrames 0 fs ++ [⟨0, false, tf, [], 0, some (fs.length + 1)⟩, Frame.zero]
  | some (data, 2) =>
    pubFrames 0 fs ++ [⟨0, false, tf, data, 0, some (fs.length + 1)⟩, Frame.zero]
  | _ => chainHeap fs tf

/-- The value of `device.Frame` while the producer is inside the loop body: between line 92
and line 93 it still points at the frame just published. -/
def midPtr (fs : List (List Byte × Bool)) : Option (List Byte × Nat) → Nat
  | some (_, 3) => fs.length - 1
  | _ => fs.length

/-- The part read but not yet published. -/
def curPart : Option (List Byte × Nat) → List (List Byte)
  | some (data, 0) => [data]
  | some (data, 1) => [data]
  | some (data, 2) => [data]
  | _ => []

/-- The number of producer moves until the upstream is used up and the loop is at its top. -/
def workLeft (pr : Producer) : Nat :=
  8 * pr.upstream.length +
    match pr.cur with
    | none => 0
    | some (_, k) => 7 - k

/-- The invariant of the interleaved system: `fs` are the frames published so far with their
flags, `tf` the flag of the frame being filled, `pos` the number of frames the consumer has
passed, `parts` everything the upstream delivers. -/
def SysInv (parts : List (List Byte)) (fs : List (List Byte × Bool)) (tf : Bool) (pos : Nat)
    (y : Sys) : Prop :=
  y.state.heap = midHeap fs tf y.producer.cur ∧
  y.state.device.Frame = some (midPtr fs y.producer.cur) ∧
  (∀ (data : List Byte) (k : Nat), y.producer.cur = some (data, k) →
    k ≤ 6 ∧ (k = 3 → fs ≠ [])) ∧
  fs.map Prod.fst ++ curPart y.producer.cur ++ y.producer.upstream = parts ∧
  y.client.frame = some pos ∧ pos ≤ fs.length ∧
  y.client.out = expectedOut (fs.take pos)

/-! ## Lemmas on lists used as a heap -/

theorem getElem?_append_at {α : Type} (A : List α) (x : α) (r : List α) (p : Nat)
    (hp : p = A.length) : (A ++ x :: r)[p]? = some x := by
  subst hp
  induction A with
  | nil => simp
  | cons a A ih => simpa using ih

theorem getElem_append_at {α : Type} (A : List α) (x : α) (r : List α) (p : Nat)
    (hp : p = A.length) (h : p < (A ++ x :: r).length) : (A ++ x :: r)[p] = x := by
  have h1 := getElem?_append_at A x r p hp
  rw [List.getElem?_eq_getElem h] at h1
  exact Option.some.inj h1

theorem set_append_at {α : Type} (A : List α) (x y : α) (r : List α) (p : Nat)
    (hp : p = A.length) : (A ++ x :: r).set p y = A ++ y :: r := by
  subst hp
  induction A with
  | nil => rfl
  | cons a A ih => simp [List.set, ih]

theorem writeFrame_at (A : List Frame) (x : Frame) (r : List Frame) (p : Nat)
    (g : Frame → Frame) (hp : p = A.length) :
    writeFrame (A ++ x :: r) p g = some (A ++ g x :: r) := by
  unfold writeFrame
  rw [getElem?_append_at A x r p hp]
  simp only [set_append_at A x (g x) r p hp]

theorem pubFrames_length (i : Nat) (fs : List (List Byte × Bool)) :
    (pubFrames i fs).length = fs.length := by
  induction fs generalizing i with
  | nil => rfl
  | cons x xs ih => simp [pubFrames, ih]

theorem pubFrames_append (i : Nat) (xs ys : List (List Byte × Bool)) :
    pubFrames i (xs ++ ys) = pubFrames i xs ++ pubFrames (i + xs.length) ys := by
  induction xs generalizing i with
  | nil => simp [pubFrames]
  | cons x xs ih =>
    have h1 : i + 1 + xs.length = i + (xs.length + 1) := by omega
    rw [List.cons_append]
    simp only [pubFrames, List.length_cons, List.cons_append]
    rw [ih, h1]

theorem chainHeap_length (fs : List (List Byte × Bool)) (tf : Bool) :
    (chainHeap fs tf).length = fs.length + 1 := by
  simp [chainHeap, pubFrames_length]

/-- The state after every prefix of the loop body, on a chain-shaped heap. -/
theorem runLines_take (fs : List (List Byte × Bool)) (tf : Bool) (data : List Byte)
    (d : Device) (hd : d.Frame = some fs.length) (k : Nat) :
    runLines ((ingestLines data).take k) ⟨chainHeap fs tf, d⟩ =
      some (match k with
        | 0 => ⟨chainHeap fs tf, d⟩
        | 1 => ⟨pubFrames 0 fs ++ [⟨0, false, tf, [], 0, some (fs.length + 1)⟩, Frame.zero], d⟩
        | 2 => ⟨pubFrames 0 fs ++ [⟨0, false, tf, data, 0, some (fs.length + 1)⟩, Frame.zero], d⟩
        | 3 => ⟨pubFrames 0 fs ++ [pubFrame fs.length (data, tf), Frame.zero], d⟩
        | 4 => ⟨pubFrames 0 fs ++ [pubFrame fs.length (data, tf), Frame.zero],
                { d with Frame := some (fs.length + 1) }⟩
        | 5 => ⟨pubFrames 0 fs ++ [pubFrame fs.length (data, tf), Frame.zero],
                { d with Frame := some (fs.length + 1), RxFrames := d.RxFrames + 1 }⟩
        | 6 => ⟨pubFrames 0 fs ++ [pubFrame fs.length (data, tf), Frame.zero],
                { d with Frame := some (fs.length + 1), RxFrames := d.RxFrames + 1,
                         RxBytesLast := (data.length : Int) }⟩
        | _ => ⟨chainHeap (fs ++ [(data, tf)]) false,
                ingestDevice d (fs.length + 1) data⟩) := by
  have hA : (pubFrames 0 fs).length = fs.length := pubFrames_length 0 fs
  have hz : Frame.zero = tailFrame false := rfl
  have hA1 : fs.length = (pubFrames 0 fs).length := hA.symm
  rcases k with _ | _ | _ | _ | _ | _ | _ | k <;>
    simp [ingestLines, runLines, line90, line91, line92, line93, line94, line95, line96,
      chainHeap, hd, writeFrame_at, hA1, getElem?_append_at, getElem_append_at,
      pubFrames_append, pubFrames, tailFrame, pubFrame, Frame.zero, ingestDevice]

/-- One whole ingestion step on a chain-shaped heap. -/
theorem ingest_chain (fs : List (List Byte × Bool)) (tf : Bool) (data : List Byte)
    (d : Device) (hd : d.Frame = some fs.length) :
    ingest data ⟨chainHeap fs tf, d⟩ =
      some ⟨chainHeap (fs ++ [(data, tf)]) false, ingestDevice d (fs.length + 1) data⟩ := by
  have h := runLines_take fs tf data d hd 7
  exact h

theorem exec_append (a b : List Step) (s : State) :
    exec (a ++ b) s = (exec a s).bind (exec b) := by
  induction a generalizing s with
  | nil => rfl
  | cons st a ih =>
    simp only [List.cons_append, exec]
    cases execStep st s with
    | none => rfl
    | some s1 => simpa using ih s1

theorem totalLen_cons (p : List Byte) (ps : List (List Byte)) :
    totalLen (p :: ps) = (p.length : Int) + totalLen ps := by
  simp [totalLen]

theorem partsOf_append (a b : List Step) : partsOf (a ++ b) = partsOf a ++ partsOf b := by
  induction a with
  | nil => rfl
  | cons st a ih => cases st <;> simp [partsOf, ih]

/-- Every interleaving of whole steps, run on a chain-shaped state, succeeds and leaves a
chain-shaped state that holds the ingested payloads. -/
theorem exec_chain (steps : List Step) (fs : List (List Byte × Bool)) (d : Device)
    (hd : d.Frame = some fs.length) :
    ∃ d1 : Device,
      exec steps ⟨chainHeap fs false, d⟩ =
        some ⟨chainHeap (fs ++ (partsOf steps).map (fun p => (p, false))) false, d1⟩ ∧
      d1.Frame = some (fs.length + (partsOf steps).length) ∧
      d1.RxFrames = d.RxFrames + ((partsOf steps).length : Int) ∧
      d1.RxBytes = d.RxBytes + totalLen (partsOf steps) ∧
      d1.Url = d.Url ∧ d1.ChunksLost = d.ChunksLost := by
  induction steps generalizing fs d with
  | nil => exact ⟨d, by simp [exec, partsOf, totalLen, hd]⟩
  | cons st rest ih =>
    cases st with
    | ingest data =>
      have hd1 : (ingestDevice d (fs.length + 1) data).Frame
            = some (fs ++ [(data, false)]).length := by simp [ingestDevice]
      obtain ⟨d1, h1, h2, h3, h4, h5, h6⟩ := ih (fs ++ [(data, false)]) _ hd1
      refine ⟨d1, ?_, ?_, ?_, ?_, ?_, ?_⟩
      · simp only [exec, execStep, ingest_chain fs false data d hd, Option.some_bind, h1,
          partsOf, List.map_cons, List.append_assoc, List.singleton_append]
      · rw [h2]; simp [partsOf]; omega
      · rw [h3]; simp [partsOf, ingestDevice]; ring
      · rw [h4]; simp [partsOf, totalLen_cons, ingestDevice]; ring
      · rw [h5]; simp [ingestDevice]
      · rw [h6]; simp [ingestDevice]
    | sample =>
      have hd1 : (statistics ⟨chainHeap fs false, d⟩).device.Frame = some fs.length := by
        simp [statistics, hd]
      obtain ⟨d1, h1, h2, h3, h4, h5, h6⟩ := ih fs (statistics ⟨chainHeap fs false, d⟩).device hd1
      refine ⟨d1, ?_, ?_, ?_, ?_, ?_, ?_⟩
      · simp only [exec, execStep, Option.some_bind, partsOf]
        exact h1
      · rw [h2]; simp [partsOf]
      · rw [h3]; simp [partsOf, statistics]
      · rw [h4]; simp [partsOf, statistics]
      · rw [h5]; simp [statistics]
      · rw [h6]; simp [statistics]

theorem initState_chain (url : GoString) :
    initState url = ⟨chainHeap [] false, ⟨some 0, url, 0, 0, 0, 0, 0, 0, 0⟩⟩ := rfl

/-- The characterisation of every state reached from the start by whole steps. -/
theorem exec_init (url : GoString) (steps : List Step) :
    ∃ d1 : Device,
      exec steps (initState url) =
        some ⟨chainHeap ((partsOf steps).map (fun p => (p, false))) false, d1⟩ ∧
      d1.Frame = some (partsOf steps).length ∧
      d1.RxFrames = ((partsOf steps).length : Int) ∧
      d1.RxBytes = totalLen (partsOf steps) := by
  obtain ⟨d1, h1, h2, h3, h4, _, _⟩ :=
    exec_chain steps [] ⟨some 0, url, 0, 0, 0, 0, 0, 0, 0⟩ rfl
  refine ⟨d1, ?_, ?_, ?_, ?_⟩
  · rw [initState_chain]; simpa using h1
  · simpa using h2
  · simpa using h3
  · simpa using h4

/-! ## Walking the chain -/

theorem pubFrames_getElem? (j i : Nat) (fs : List (List Byte × Bool)) :
    (pubFrames j fs)[i]? = fs[i]?.map (pubFrame (j + i)) := by
  induction fs generalizing j i with
  | nil => simp [pubFrames]
  | cons x xs ih =>
    cases i with
    | zero => simp [pubFrames]
    | succ i =>
      have h1 : j + 1 + i = j + (i + 1) := by omega
      simp [pubFrames, ih, h1]

theorem chainHeap_get_lt (fs : List (List Byte × Bool)) (tf : Bool) (i : Nat)
    (x : List Byte × Bool) (h : fs[i]? = some x) :
    (chainHeap fs tf)[i]? = some (pubFrame i x) := by
  have hi : i < fs.length := by
    by_contra hc
    rw [List.getElem?_eq_none (by omega)] at h
    cases h
  unfold chainHeap
  rw [List.getElem?_append_left (by rw [pubFrames_length]; exact hi), pubFrames_getElem?, h]
  simp

theorem chainHeap_get_last (fs : List (List Byte × Bool)) (tf : Bool) :
    (chainHeap fs tf)[fs.length]? = some (tailFrame tf) :=
  getElem?_append_at (pubFrames 0 fs) (tailFrame tf) [] fs.length (pubFrames_length 0 fs).symm

theorem chainHeap_get_gt (fs : List (List Byte × Bool)) (tf : Bool) (i : Nat)
    (h : fs.length < i) : (chainHeap fs tf)[i]? = none := by
  apply List.getElem?_eq_none
  rw [chainHeap_length]
  omega

theorem getElem?_of_lt {α : Type} (l : List α) (i : Nat) (h : i < l.length) :
    ∃ x, l[i]? = some x :=
  ⟨l[i], List.getElem?_eq_getElem h⟩

theorem drop_of_getElem? {α : Type} (l : List α) (i : Nat) (x : α) (h : l[i]? = some x) :
    l.drop i = x :: l.drop (i + 1) := by
  induction l generalizing i with
  | nil => simp at h
  | cons a l ih =>
    cases i with
    | zero =>
      simp at h
      simp [h]
    | succ i =>
      simp at h
      simpa using ih i h

theorem chainFrom_none (h : List Frame) (fuel : Nat) : chainFrom h fuel none = [] := by
  cases fuel <;> rfl

theorem chainPtrs_none (h : List Frame) (fuel : Nat) : chainPtrs h fuel none = [] := by
  cases fuel <;> rfl

/-- Walking `Next` from position `i` of a chain-shaped heap meets exactly the frames from `i`
on, whatever fuel is left over. -/
theorem chainFrom_chainHeap (fs : List (List Byte × Bool)) (tf : Bool) :
    ∀ (fuel i : Nat), i ≤ fs.length → fs.length + 1 ≤ fuel + i →
      chainFrom (chainHeap fs tf) fuel (some i) = (chainHeap fs tf).drop i := by
  intro fuel
  induction fuel with
  | zero => intro i hi hf; omega
  | succ fuel ih =>
    intro i hi hf
    rcases Nat.lt_or_ge i fs.length with hlt | hge
    · obtain ⟨x, hx⟩ := getElem?_of_lt fs i hlt
      have hg := chainHeap_get_lt fs tf i x hx
      rw [drop_of_getElem? _ i _ hg]
      simp only [chainFrom, hg]
      have hn : (pubFrame i x).Next = some (i + 1) := rfl
      rw [hn, ih (i + 1) (by omega) (by omega)]
    · have hi2 : i = fs.length := by omega
      subst hi2
      have hg := chainHeap_get_last fs tf
      rw [drop_of_getElem? _ _ _ hg]
      simp only [chainFrom, hg]
      have hn : (tailFrame tf).Next = none := rfl
      rw [hn, chainFrom_none]
      have hd : (chainHeap fs tf).drop (fs.length + 1) = [] := by
        apply List.drop_eq_nil_of_le
        rw [chainHeap_length]
      rw [hd]

theorem chainPtrs_chainHeap (fs : List (List Byte × Bool)) (tf : Bool) :
    ∀ (fuel i : Nat), i ≤ fs.length → fs.length + 1 ≤ fuel + i →
      chainPtrs (chainHeap fs tf) fuel (some i) = List.range' i (fs.length + 1 - i) := by
  intro fuel
  induction fuel with
  | zero => intro i hi hf; omega
  | succ fuel ih =>
    intro i hi hf
    rcases Nat.lt_or_ge i fs.length with hlt | hge
    · obtain ⟨x, hx⟩ := getElem?_of_lt fs i hlt
      have hg := chainHeap_get_lt fs tf i x hx
      simp only [chainPtrs, hg]
      have hn : (pubFrame i x).Next = some (i + 1) := rfl
      rw [hn, ih (i + 1) (by omega) (by omega)]
      have h2 : fs.length + 1 - i = (fs.length + 1 - (i + 1)) + 1 := by omega
      rw [h2, List.range'_succ]
    · have hi2 : i = fs.length := by omega
      subst hi2
      have hg := chainHeap_get_last fs tf
      simp only [chainPtrs, hg]
      have hn : (tailFrame tf).Next = none := rfl
      rw [hn, chainPtrs_none]
      simp

theorem pubFrames_map_data (i : Nat) (ps : List (List Byte)) :
    (pubFrames i (ps.map (fun p => (p, false)))).map (fun f => (f.Complete, f.Data)) =
      ps.map (fun p => (true, p)) := by
  induction ps generalizing i with
  | nil => rfl
  | cons p ps ih => simp [pubFrames, pubFrame, ih]

theorem mem_pubFrames (i : Nat) (fs : List (List Byte × Bool)) (f : Frame)
    (h : f ∈ pubFrames i fs) : ∃ j x, f = pubFrame j x := by
  induction fs generalizing i with
  | nil => simp [pubFrames] at h
  | cons x xs ih =>
    simp only [pubFrames, List.mem_cons] at h
    rcases h with h | h
    · exact ⟨i, x, h⟩
    · exact ih (i + 1) h

theorem mem_chainHeap (fs : List (List Byte × Bool)) (tf : Bool) (f : Frame)
    (h : f ∈ chainHeap fs tf) : (∃ j x, f = pubFrame j x) ∨ f = tailFrame tf := by
  simp only [chainHeap, List.mem_append, List.mem_singleton] at h
  rcases h with h | h
  · exact Or.inl (mem_pubFrames 0 fs f h)
  · exact Or.inr h

/-! ## The sequential consumer on a chain-shaped heap -/

theorem expectedOut_append (a b : List (List Byte × Bool)) :
    expectedOut (a ++ b) = expectedOut a ++ expectedOut b := by
  induction a with
  | nil => rfl
  | cons x a ih =>
    obtain ⟨data, dmg⟩ := x
    simp [expectedOut, ih]

theorem take_succ_of_getElem? {α : Type} (l : List α) (i : Nat) (x : α)
    (h : l[i]? = some x) : l.take (i + 1) = l.take i ++ [x] := by
  rw [List.take_succ, h]
  rfl

theorem expectedOut_take_append (fs extra : List (List Byte × Bool)) (pos : Nat)
    (hpos : pos ≤ fs.length) :
    expectedOut ((fs ++ extra).take pos) = expectedOut (fs.take pos) := by
  rw [List.take_append_of_le_length hpos]

/-! ## The wait loop -/

/-- No poll before `ms` sees `true`: the loop ends with the error after `ms` sleeps. -/
theorem waitLoop_timeout (obs : Nat → Bool) (ms : Int) (hms : 0 < ms) :
    ∀ (fuel i : Nat), (i : Int) ≤ ms → (∀ j : Nat, i ≤ j → (j : Int) < ms → obs j = false) →
      ms.toNat - i < fuel → waitLoop obs ms fuel i = .timedOut ms.toNat := by
  intro fuel
  induction fuel with
  | zero => intro i _ _ h; omega
  | succ fuel ih =>
    intro i hi hobs hf
    by_cases hlt : (i : Int) < ms
    · have ho := hobs i (le_refl _) hlt
      simp only [waitLoop, hlt, true_or, if_true, ho]
      exact ih (i + 1) (by omega) (fun j hj hjm => hobs j (by omega) hjm) (by omega)
    · have hne : ¬ ms = 0 := by omega
      have hie : ms.toNat = i := by omega
      simp [waitLoop, hlt, hne, hie]

/-- The first poll that sees `true` ends the loop with nil, after as many sleeps as polls
before it. -/
theorem waitLoop_found (obs : Nat → Bool) (ms : Int) (k : Nat)
    (hk : (k : Int) < ms ∨ ms = 0) (hobs : obs k = true) :
    ∀ (fuel i : Nat), i ≤ k → (∀ j : Nat, i ≤ j → j < k → obs j = false) →
      k - i < fuel → waitLoop obs ms fuel i = .returnedNil k := by
  intro fuel
  induction fuel with
  | zero => intro i _ _ h; omega
  | succ fuel ih =>
    intro i hi hfalse hf
    have hc : (i : Int) < ms ∨ ms = 0 := by
      rcases hk with h | h
      · left; omega
      · right; exact h
    by_cases hik : i = k
    · subst hik
      simp [waitLoop, hc, hobs]
    · have ho := hfalse i (le_refl _) (by omega)
      simp only [waitLoop, hc, if_true, ho]
      exact ih (i + 1) (by omega) (fun j hj hjk => hfalse j (by omega) hjk) (by omega)

/-- With `ms == 0` the loop never ends with the error. -/
theorem waitLoop_zero_ne_timedOut (obs : Nat → Bool) :
    ∀ (fuel i n : Nat), waitLoop obs 0 fuel i ≠ .timedOut n := by
  intro fuel
  induction fuel with
  | zero => intro i n h; simp [waitLoop] at h
  | succ fuel ih =>
    intro i n
    by_cases ho : obs i = true
    · simp [waitLoop, ho]
    · have ho2 : obs i = false := by simpa using ho
      simp only [waitLoop, or_true, if_true, ho2]
      exact ih (i + 1) n

/-- With `ms == 0` and no poll seeing `true`, the loop is still polling after any number of
polls. -/
theorem waitLoop_zero_blocks (obs : Nat → Bool) (hobs : ∀ j, obs j = false) :
    ∀ (fuel i : Nat), waitLoop obs 0 fuel i = .stillWaiting := by
  intro fuel
  induction fuel with
  | zero => intro i; rfl
  | succ fuel ih =>
    intro i
    simp only [waitLoop, or_true, if_true, hobs i]
    exact ih (i + 1)

/-- The `/frame.jpeg` handler when the frame it holds stays incomplete for 1000 polls. -/
theorem frameJpeg_timeout (world : Nat → State) (p : Nat)
    (hp : (world 0).device.Frame = some p)
    (hw : ∀ i : Nat, i < 1000 → frameComplete (world i) p = false) (fuel : Nat)
    (hf : 1000 < fuel) :
    frameJpeg world fuel = .data 200 (bytesOf "image/jpeg") (frameData (world 1000) p) := by
  have h := waitLoop_timeout (fun i => frameComplete (world i) p) 1000 (by decide) fuel 0
    (by decide) (fun j _ hj => hw j (by omega)) (by simpa using hf)
  simp only [frameJpeg, hp, waitComplete, h]
  rfl

/-- The `/frame.jpeg` handler when the frame it holds is seen complete at poll `k`. -/
theorem frameJpeg_found (world : Nat → State) (p k : Nat)
    (hp : (world 0).device.Frame = some p) (hk : k < 1000)
    (hc : frameComplete (world k) p = true)
    (hw : ∀ i : Nat, i < k → frameComplete (world i) p = false) (fuel : Nat)
    (hf : k < fuel) :
    frameJpeg world fuel = .data 200 (bytesOf "image/jpeg") (frameData (world k) p) := by
  have h := waitLoop_found (fun i => frameComplete (world i) p) 1000 k
    (Or.inl (by omega)) hc fuel 0 (Nat.zero_le _) (fun j _ hj => hw j hj) (by simpa using hf)
  simp only [frameJpeg, hp, waitComplete, h]

/-! ## Complete frames of a heap under construction -/

/-- On a heap made of published frames, then a frame `x` that is complete only once its
`Next` is set, then frames that are not complete, a complete frame is a published one or
`x`, and its `Next` points at a frame. -/
theorem complete_has_next (fs : List (List Byte × Bool)) (x : Frame) (r : List Frame)
    (hx : x.Complete = true → x.Next = some (fs.length + 1) ∧ r ≠ [])
    (hr : ∀ g ∈ r, g.Complete = false) (p : Nat) (f : Frame)
    (hf : (pubFrames 0 fs ++ x :: r)[p]? = some f) (hc : f.Complete = true) :
    ∃ q g, f.Next = some q ∧ (pubFrames 0 fs ++ x :: r)[q]? = some g := by
  have hlen : (pubFrames 0 fs).length = fs.length := pubFrames_length 0 fs
  rcases Nat.lt_trichotomy p fs.length with hlt | heq | hgt
  · rw [List.getElem?_append_left (by omega), pubFrames_getElem?] at hf
    obtain ⟨y, hy⟩ := getElem?_of_lt fs p hlt
    rw [hy] at hf
    simp only [Option.map_some', Nat.zero_add, Option.some.injEq] at hf
    subst hf
    have hq : p + 1 < (pubFrames 0 fs ++ x :: r).length := by
      simp [hlen]; omega
    obtain ⟨g, hg⟩ := getElem?_of_lt _ (p + 1) hq
    exact ⟨p + 1, g, rfl, hg⟩
  · rw [getElem?_append_at _ x r p (by omega)] at hf
    have hfx : x = f := Option.some.inj hf
    subst hfx
    obtain ⟨hn, hne⟩ := hx hc
    have hq : fs.length + 1 < (pubFrames 0 fs ++ x :: r).length := by
      have : 0 < r.length := List.length_pos.mpr hne
      simp [hlen]; omega
    obtain ⟨g, hg⟩ := getElem?_of_lt _ (fs.length + 1) hq
    exact ⟨fs.length + 1, g, hn, hg⟩
  · rw [List.getElem?_append_right (by omega)] at hf
    have hp : p - (pubFrames 0 fs).length = (p - fs.length - 1) + 1 := by omega
    rw [hp, List.getElem?_cons_succ] at hf
    have hmem := List.getElem?_mem hf
    rw [hr f hmem] at hc
    cases hc

theorem chainHeap_complete (fs : List (List Byte × Bool)) (tf : Bool) (p : Nat) (f : Frame)
    (hf : (chainHeap fs tf)[p]? = some f) (hc : f.Complete = true) :
    ∃ x, fs[p]? = some x ∧ f = pubFrame p x := by
  rcases Nat.lt_trichotomy p fs.length with hlt | heq | hgt
  · obtain ⟨y, hy⟩ := getElem?_of_lt fs p hlt
    rw [chainHeap_get_lt fs tf p y hy] at hf
    exact ⟨y, hy, (Option.some.inj hf).symm⟩
  · subst heq
    rw [chainHeap_get_last] at hf
    have h1 : tailFrame tf = f := Option.some.inj hf
    rw [← h1] at hc
    cases hc
  · rw [chainHeap_get_gt fs tf p hgt] at hf
    cases hf

/-- After every prefix of the loop body run on a chain-shaped heap, a complete frame has its
successor linked. -/
theorem runLines_take_complete (fs : List (List Byte × Bool)) (tf : Bool) (data : List Byte)
    (d : Device) (hd : d.Frame = some fs.length) (k : Nat) :
    ∃ s1 : State, runLines ((ingestLines data).take k) ⟨chainHeap fs tf, d⟩ = some s1 ∧
      ∀ (p : Nat) (f : Frame), s1.heap[p]? = some f → f.Complete = true →
        ∃ (q : Nat) (g : Frame), f.Next = some q ∧ s1.heap[q]? = some g := by
  refine ⟨_, runLines_take fs tf data d hd k, ?_⟩
  have hzero : ∀ g ∈ [Frame.zero], g.Complete = false := by
    intro g hg
    simp only [List.mem_singleton] at hg
    subst hg
    rfl
  have hnil : ∀ g ∈ ([] : List Frame), g.Complete = false := by
    intro g hg
    cases hg
  have hpub : ∀ (fs1 : List (List Byte × Bool)) (tf1 : Bool) (p : Nat) (f : Frame),
      (chainHeap fs1 tf1)[p]? = some f → f.Complete = true →
        ∃ q g, f.Next = some q ∧ (chainHeap fs1 tf1)[q]? = some g := fun fs1 tf1 p f h1 h2 =>
    complete_has_next fs1 (tailFrame tf1) [] (fun h => by simp [tailFrame] at h) hnil p f h1 h2
  have hfilled := complete_has_next fs (pubFrame fs.length (data, tf)) [Frame.zero]
    (fun _ => ⟨rfl, by simp⟩) hzero
  rcases k with _ | _ | _ | _ | _ | _ | _ | k
  · exact hpub fs tf
  · exact complete_has_next fs ⟨0, false, tf, [], 0, some (fs.length + 1)⟩ [Frame.zero]
      (fun h => by simp at h) hzero
  · exact complete_has_next fs ⟨0, false, tf, data, 0, some (fs.length + 1)⟩ [Frame.zero]
      (fun h => by simp at h) hzero
  · exact hfilled
  · exact hfilled
  · exact hfilled
  · exact hfilled
  · exact hpub (fs ++ [(data, tf)]) false

theorem chainHeap_number (fs : List (List Byte × Bool)) (tf : Bool) (f : Frame)
    (h : f ∈ chainHeap fs tf) : f.Number = 0 := by
  rcases mem_chainHeap fs tf f h with ⟨j, x, hj⟩ | hj <;> subst hj <;> rfl

/-! ## Ingestion: the chain and the counters -/

/-- C2: for every interleaving of whole ingestion steps and sampler steps from the start
state, the run succeeds; the chain walked from the initial frame is one complete frame per
part, holding the parts in order, followed by one incomplete frame with empty `Data`,
whatever fuel is left; `RxFrames` is the number of parts and `RxBytes` the sum of their
lengths; a frame once complete is found unchanged after any later steps; and parts of sizes
100, 200, 150 give payload lengths 100, 200, 150, `RxBytes = 450` and `RxFrames = 3`. -/
theorem ingestion_publishes_parts (url : GoString) (steps : List Step) :
    ∃ s : State, exec steps (initState url) = some s ∧
      (∀ fuel : Nat, s.heap.length ≤ fuel →
        (chainFrom s.heap fuel (initState url).device.Frame).map
            (fun f => (f.Complete, f.Data)) =
          (partsOf steps).map (fun p => (true, p)) ++ [(false, [])]) ∧
      s.device.RxFrames = ((partsOf steps).length : Int) ∧
      s.device.RxBytes = totalLen (partsOf steps) ∧
      (∀ later : List Step, ∃ s2 : State,
        exec (steps ++ later) (initState url) = some s2 ∧
        ∀ (p : Nat) (f : Frame), s.heap[p]? = some f → f.Complete = true →
          s2.heap[p]? = some f) ∧
      (∀ a b c : List Byte, a.length = 100 → b.length = 200 → c.length = 150 →
        ∃ s3 : State,
          exec [Step.ingest a, Step.ingest b, Step.ingest c] (initState url) = some s3 ∧
          (chainFrom s3.heap s3.heap.length (initState url).device.Frame).map
              (fun f => (f.Complete, f.Data.length)) =
            [(true, 100), (true, 200), (true, 150), (false, 0)] ∧
          s3.device.RxBytes = 450 ∧ s3.device.RxFrames = 3) := by
  obtain ⟨d1, h1, h2, h3, h4⟩ := exec_init url steps
  refine ⟨_, h1, ?_, h3, h4, ?_, ?_⟩
  · intro fuel hfuel
    have hlen : (partsOf steps).length + 1 ≤ fuel + 0 := by
      simpa [chainHeap_length] using hfuel
    have hw := chainFrom_chainHeap ((partsOf steps).map (fun p => (p, false))) false fuel 0
      (Nat.zero_le _) (by simpa using hlen)
    show (chainFrom _ fuel (some 0)).map _ = _
    rw [hw]
    simp [chainHeap, pubFrames_map_data, tailFrame]
  · intro later
    obtain ⟨e1, g1, -, -, -⟩ := exec_init url (steps ++ later)
    refine ⟨_, g1, ?_⟩
    intro p f hf hc
    obtain ⟨x, hx, hfx⟩ := chainHeap_complete _ false p f hf hc
    subst hfx
    apply chainHeap_get_lt
    have hp : p < ((partsOf steps).map (fun q => (q, false))).length := by
      by_contra hcon
      rw [List.getElem?_eq_none (by omega)] at hx
      cases hx
    rw [partsOf_append, List.map_append, List.getElem?_append_left hp]
    exact hx
  · intro a b c ha hb hc
    obtain ⟨e1, g1, -, g3, g4⟩ := exec_init url [Step.ingest a, Step.ingest b, Step.ingest c]
    refine ⟨_, g1, ?_, ?_, ?_⟩
    · have hw := chainFrom_chainHeap
        ((partsOf [Step.ingest a, Step.ingest b, Step.ingest c]).map (fun p => (p, false)))
        false 4 0 (Nat.zero_le _) (by simp [partsOf])
      show (chainFrom _ 4 (some 0)).map _ = _
      rw [hw]
      simp [chainHeap, partsOf, pubFrames, pubFrame, tailFrame, ha, hb, hc]
    · rw [g4]
      simp [partsOf, totalLen, ha, hb, hc]
    · rw [g3]
      simp [partsOf]

/-- C2, at parts of 100, 200 and 150 zero bytes with a sampler step in between: the chain
holds payloads of those lengths, `RxBytes = 450`, `RxFrames = 3`. -/
theorem ingestion_publishes_parts_witness :
    ∃ s3 : State,
      exec [Step.ingest (List.replicate 100 0), Step.ingest (List.replicate 200 0),
            Step.ingest (List.replicate 150 0)] (initState []) = some s3 ∧
      (chainFrom s3.heap s3.heap.length (initState []).device.Frame).map
          (fun f => (f.Complete, f.Data.length)) =
        [(true, 100), (true, 200), (true, 150), (false, 0)] ∧
      s3.device.RxBytes = 450 ∧ s3.device.RxFrames = 3 := by
  obtain ⟨_, _, _, _, _, _, h⟩ := ingestion_publishes_parts [] []
  exact h (List.replicate 100 0) (List.replicate 200 0) (List.replicate 150 0)
    (List.length_replicate 100 0) (List.length_replicate 200 0) (List.length_replicate 150 0)

/-- C8, as the claim states it, fails: after two parts the second frame of the chain has
`Number` 0, not 1, and the first frame and its successor carry the same number. -/
theorem frame_number_counterexample :
    ¬ (∀ s : State, exec [Step.ingest [1], Step.ingest [2]] (initState []) = some s →
        ∀ (i : Nat) (f : Frame),
          (chainFrom s.heap s.heap.length (initState []).device.Frame)[i]? = some f →
            f.Number = (i : Int)) := by
  intro h
  have h1 := h ⟨chainHeap [([1], false), ([2], false)] false, ⟨some 2, [], 2, 1, 2, 0, 0, 0, 0⟩⟩
    (by decide) 1 (pubFrame 1 ([2], false)) (by decide)
  exact absurd h1 (by decide)

/-- C8, amended: `Number` is never assigned. After every interleaving of whole steps every
frame has `Number = 0`; so a frame and its successor carry the same number, and a consumer
following `Next` never sees the number decrease. -/
theorem frame_number_zero (url : GoString) (steps : List Step) :
    ∃ s : State, exec steps (initState url) = some s ∧
      (∀ f ∈ s.heap, f.Number = 0) ∧
      (∀ (p q : Nat) (f g : Frame), s.heap[p]? = some f → f.Next = some q →
        s.heap[q]? = some g → g.Number = f.Number ∧ f.Number ≤ g.Number) := by
  obtain ⟨d1, h1, -, -, -⟩ := exec_init url steps
  refine ⟨_, h1, fun f hf => chainHeap_number _ false f hf, ?_⟩
  intro p q f g hf _ hg
  have e1 := chainHeap_number _ false f (List.getElem?_mem hf)
  have e2 := chainHeap_number _ false g (List.getElem?_mem hg)
  rw [e1, e2]
  exact ⟨rfl, le_refl _⟩

/-- C8, amended, at two parts with a sampler step: every frame has `Number = 0`. -/
theorem frame_number_zero_witness :
    ∃ s : State,
      exec [Step.ingest [1], Step.sample, Step.ingest [2]] (initState []) = some s ∧
      ∀ f ∈ s.heap, f.Number = 0 := by
  obtain ⟨s, h1, h2, -⟩ := frame_number_zero [] [Step.ingest [1], Step.sample, Step.ingest [2]]
  exact ⟨s, h1, h2⟩

/-- C10: after every interleaving of whole ingestion and sampler steps from the start state,
`device.Frame` is non-nil and is the last node of the chain walked from the initial frame,
which meets every allocated frame; that node has `Complete = false`, empty `Data` and
`Next = nil`; every node before it has `Complete = true` and `Next` pointing at the next
node. And after every prefix of the statements of a further ingestion step, a frame with
`Complete = true` has a `Next` that points at a frame, so the sequential consumer that has
seen it complete steps to a non-nil cursor. -/
theorem chain_invariant (url : GoString) (steps : List Step) :
    ∃ (s : State) (n : Nat), exec steps (initState url) = some s ∧
      s.heap.length = n + 1 ∧ s.device.Frame = some n ∧
      (∀ fuel : Nat, n + 1 ≤ fuel →
        chainPtrs s.heap fuel (initState url).device.Frame = List.range (n + 1)) ∧
      (∃ f : Frame, s.heap[n]? = some f ∧ f.Complete = false ∧ f.Data = [] ∧ f.Next = none) ∧
      (∀ i : Nat, i < n →
        ∃ f : Frame, s.heap[i]? = some f ∧ f.Complete = true ∧ f.Next = some (i + 1)) ∧
      (∀ (data : List Byte) (k : Nat), ∃ s1 : State,
        runLines ((ingestLines data).take k) s = some s1 ∧
        ∀ (p : Nat) (f : Frame), s1.heap[p]? = some f → f.Complete = true →
          (∃ (q : Nat) (g : Frame), f.Next = some q ∧ s1.heap[q]? = some g) ∧
          ∀ (ifd : Int) (out : List Byte), ¬ 0 < ifd →
            ∃ c1 : Consumer, consumerStep ifd s1 ⟨some p, out⟩ = some c1 ∧
              c1.frame = f.Next ∧ c1.frame ≠ none) := by
  obtain ⟨d1, h1, h2, -, -⟩ := exec_init url steps
  refine ⟨_, (partsOf steps).length, h1, ?_, h2, ?_, ?_, ?_, ?_⟩
  · simp [chainHeap_length]
  · intro fuel hfuel
    have hw := chainPtrs_chainHeap ((partsOf steps).map (fun p => (p, false))) false fuel 0
      (Nat.zero_le _) (by simpa using hfuel)
    show chainPtrs _ fuel (some 0) = _
    rw [hw, List.range_eq_range']
    simp
  · refine ⟨tailFrame false, ?_, rfl, rfl, rfl⟩
    have hg := chainHeap_get_last ((partsOf steps).map (fun p => (p, false))) false
    simpa using hg
  · intro i hi
    obtain ⟨x, hx⟩ := getElem?_of_lt ((partsOf steps).map (fun p => (p, false))) i
      (by simpa using hi)
    exact ⟨pubFrame i x, chainHeap_get_lt _ false i x hx, rfl, rfl⟩
  · intro data k
    obtain ⟨s1, g1, g2⟩ := runLines_take_complete
      ((partsOf steps).map (fun p => (p, false))) false data d1 (by simpa using h2) k
    refine ⟨s1, g1, ?_⟩
    intro p f hf hc
    obtain ⟨q, g, hq, hg⟩ := g2 p f hf hc
    refine ⟨⟨q, g, hq, hg⟩, ?_⟩
    intro ifd out hifd
    refine ⟨⟨f.Next, if f.Damaged then out else out ++ partBytes f.Data⟩, ?_, rfl, ?_⟩
    · simp [consumerStep, hf, hc, hifd]
    · simp [hq]

/-- C10, at two parts with a sampler step in between: three frames, `device.Frame` the last,
the chain walked from the initial frame meets them in order. -/
theorem chain_invariant_witness :
    ∃ (s : State) (n : Nat),
      exec [Step.ingest [1], Step.sample, Step.ingest [2]] (initState []) = some s ∧
      s.heap.length = n + 1 ∧ s.device.Frame = some n := by
  obtain ⟨s, n, h1, h2, h3, -⟩ :=
    chain_invariant [] [Step.ingest [1], Step.sample, Step.ingest [2]]
  exact ⟨s, n, h1, h2, h3⟩

/-- C7, on the code: after parts of 3 and 5 bytes, the first sampler step stores `BPS = 3`
although 8 bytes were ingested since startup (`RxBytes = 8`): line 95 overwrote
`RxBytesLast` with the length of the last part. The frame rate next to it is right,
`FPS = 2` for `RxFrames = 2`. -/
theorem bps_after_ingest :
    (exec [Step.ingest [1, 2, 3], Step.ingest [4, 5, 6, 7, 8], Step.sample] (initState [])).map
        (fun s => (s.device.BPS, s.device.RxBytes, s.device.FPS, s.device.RxFrames)) =
      some (3, 8, 2, 2) := by
  decide

/-- What the sampler stores right after an ingestion step, in general: the value of
`float32` at the byte count before the last part, whatever was sampled before. -/
theorem bps_general (url : GoString) (steps : List Step) (data : List Byte) :
    ∃ s : State, exec (steps ++ [Step.ingest data, Step.sample]) (initState url) = some s ∧
      s.device.BPS = float32 (totalLen (partsOf steps)) := by
  obtain ⟨d1, h1, h2, -, h4⟩ := exec_init url steps
  rw [exec_append, h1]
  simp only [Option.some_bind, exec, execStep]
  rw [ingest_chain _ false data d1 (by simpa using h2)]
  simp only [Option.some_bind]
  refine ⟨_, rfl, ?_⟩
  simp [statistics, ingestDevice, h4]

/-- A poll that sees a frame incomplete leaves the consumer as it is. -/
theorem consumerStep_incomplete (ifd : Int) (s : State) (c : Consumer) (p : Nat) (f : Frame)
    (hc : c.frame = some p) (hf : s.heap[p]? = some f) (hi : f.Complete = false) :
    consumerStep ifd s c = some c := by
  simp [consumerStep, hc, hf, hi]

/-! ## The sequential consumer -/

theorem queryIfd_sequential (q : Option GoString) (hq : q = none ∨ q = some (bytesOf "0")) :
    queryIfd q = 0 := by
  rcases hq with h | h <;> subst h <;> decide

/-! ## The statements of the loop body on the heaps they meet -/

theorem line90_chain (fs : List (List Byte × Bool)) (tf : Bool) (d : Device)
    (hd : d.Frame = some fs.length) :
    line90 ⟨chainHeap fs tf, d⟩ =
      some ⟨pubFrames 0 fs ++ [⟨0, false, tf, [], 0, some (fs.length + 1)⟩, Frame.zero], d⟩ := by
  have hA : fs.length = (pubFrames 0 fs).length := (pubFrames_length 0 fs).symm
  simp [line90, chainHeap, hd, writeFrame_at, hA, tailFrame]

theorem line91_mid (fs : List (List Byte × Bool)) (tf : Bool) (data : List Byte) (d : Device)
    (hd : d.Frame = some fs.length) :
    line91 data
        ⟨pubFrames 0 fs ++ [⟨0, false, tf, [], 0, some (fs.length + 1)⟩, Frame.zero], d⟩ =
      some ⟨pubFrames 0 fs ++ [⟨0, false, tf, data, 0, some (fs.length + 1)⟩, Frame.zero],
        d⟩ := by
  have hA : fs.length = (pubFrames 0 fs).length := (pubFrames_length 0 fs).symm
  simp [line91, hd, writeFrame_at, hA]

theorem line92_mid (fs : List (List Byte × Bool)) (tf : Bool) (data : List Byte) (d : Device)
    (hd : d.Frame = some fs.length) :
    line92 ⟨pubFrames 0 fs ++ [⟨0, false, tf, data, 0, some (fs.length + 1)⟩, Frame.zero], d⟩ =
      some ⟨chainHeap (fs ++ [(data, tf)]) false, d⟩ := by
  have hA : fs.length = (pubFrames 0 fs).length := (pubFrames_length 0 fs).symm
  simp [line92, hd, writeFrame_at, hA, chainHeap, pubFrames_append, pubFrames, pubFrame,
    tailFrame, Frame.zero]

theorem line93_chain (fs : List (List Byte × Bool)) (tf : Bool) (d : Device) (hne : fs ≠ [])
    (hd : d.Frame = some (fs.length - 1)) :
    line93 ⟨chainHeap fs tf, d⟩ = some ⟨chainHeap fs tf, { d with Frame := some fs.length }⟩ := by
  have hpos : 0 < fs.length := List.length_pos.mpr hne
  obtain ⟨x, hx⟩ := getElem?_of_lt fs (fs.length - 1) (by omega)
  have hg := chainHeap_get_lt fs tf (fs.length - 1) x hx
  have hn : fs.length - 1 + 1 = fs.length := by omega
  simp [line93, hd, hg, pubFrame, hn]

/-! ## The heap in the middle of the loop body -/

theorem midHeap_get_lt (fs : List (List Byte × Bool)) (tf : Bool)
    (cur : Option (List Byte × Nat)) (i : Nat) (x : List Byte × Bool)
    (h : fs[i]? = some x) : (midHeap fs tf cur)[i]? = some (pubFrame i x) := by
  have hi : i < fs.length := by
    by_contra hc
    rw [List.getElem?_eq_none (by omega)] at h
    cases h
  have hmid : ∀ (a b : Frame), (pubFrames 0 fs ++ [a, b])[i]? = some (pubFrame i x) := by
    intro a b
    rw [List.getElem?_append_left (by rw [pubFrames_length]; exact hi), pubFrames_getElem?, h]
    simp
  rcases cur with _ | ⟨data, k⟩
  · exact chainHeap_get_lt fs tf i x h
  · rcases k with _ | _ | _ | k
    · exact chainHeap_get_lt fs tf i x h
    · exact hmid _ _
    · exact hmid _ _
    · exact chainHeap_get_lt fs tf i x h

theorem midHeap_get_last (fs : List (List Byte × Bool)) (tf : Bool)
    (cur : Option (List Byte × Nat)) :
    ∃ f : Frame, (midHeap fs tf cur)[fs.length]? = some f ∧ f.Complete = false := by
  have hA : fs.length = (pubFrames 0 fs).length := (pubFrames_length 0 fs).symm
  rcases cur with _ | ⟨data, k⟩
  · exact ⟨_, chainHeap_get_last fs tf, rfl⟩
  · rcases k with _ | _ | _ | k
    · exact ⟨_, chainHeap_get_last fs tf, rfl⟩
    · exact ⟨_, getElem?_append_at (pubFrames 0 fs) _ [Frame.zero] fs.length hA, rfl⟩
    · exact ⟨_, getElem?_append_at (pubFrames 0 fs) _ [Frame.zero] fs.length hA, rfl⟩
    · exact ⟨_, chainHeap_get_last fs tf, rfl⟩

/-- A poll of the sequential consumer on a published frame writes its part, unless damaged,
and moves to the next frame. -/
theorem consumerStep_pub (ifd : Int) (hifd : ¬ 0 < ifd) (fs : List (List Byte × Bool))
    (s : State) (pos : Nat) (x : List Byte × Bool) (hx : fs[pos]? = some x)
    (hg : s.heap[pos]? = some (pubFrame pos x)) :
    consumerStep ifd s ⟨some pos, expectedOut (fs.take pos)⟩ =
      some ⟨some (pos + 1), expectedOut (fs.take (pos + 1))⟩ := by
  obtain ⟨data, dmg⟩ := x
  rw [take_succ_of_getElem? fs pos (data, dmg) hx, expectedOut_append]
  simp only [consumerStep, hg]
  cases dmg <;> simp [pubFrame, hifd, expectedOut]

/-- The marker changes the flag of the frame being filled and nothing else. -/
theorem markDamaged_mid (fs : List (List Byte × Bool)) (tf : Bool)
    (cur : Option (List Byte × Nat)) (d : Device) (hd : d.Frame = some (midPtr fs cur))
    (h3 : ∀ (data : List Byte), cur = some (data, 3) → fs ≠ []) :
    ∃ tf1 : Bool, markDamaged ⟨midHeap fs tf cur, d⟩ = ⟨midHeap fs tf1 cur, d⟩ := by
  have hA : fs.length = (pubFrames 0 fs).length := (pubFrames_length 0 fs).symm
  have hchain : ∀ d1 : Device, d1.Frame = some fs.length →
      markDamaged ⟨chainHeap fs tf, d1⟩ = ⟨chainHeap fs true, d1⟩ := by
    intro d1 hd1
    simp [markDamaged, hd1, tailFrame, chainHeap, getElem?_append_at, getElem_append_at,
      set_append_at, hA]
  have hmid : ∀ (dk : List Byte) (d1 : Device), d1.Frame = some fs.length →
      markDamaged
          ⟨pubFrames 0 fs ++ [⟨0, false, tf, dk, 0, some (fs.length + 1)⟩, Frame.zero], d1⟩ =
        ⟨pubFrames 0 fs ++ [⟨0, false, true, dk, 0, some (fs.length + 1)⟩, Frame.zero], d1⟩ := by
    intro dk d1 hd1
    simp [markDamaged, hd1, getElem?_append_at, getElem_append_at, set_append_at, hA]
  rcases cur with _ | ⟨data, k⟩
  · exact ⟨true, hchain d hd⟩
  · rcases k with _ | _ | _ | _ | k
    · exact ⟨true, hchain d hd⟩
    · exact ⟨true, hmid [] d hd⟩
    · exact ⟨true, hmid data d hd⟩
    · refine ⟨tf, ?_⟩
      have hne := h3 data rfl
      have hpos : 0 < fs.length := List.length_pos.mpr hne
      obtain ⟨x, hx⟩ := getElem?_of_lt fs (fs.length - 1) (by omega)
      have hg := chainHeap_get_lt fs tf (fs.length - 1) x hx
      have hd3 : d.Frame = some (fs.length - 1) := hd
      show markDamaged ⟨chainHeap fs tf, d⟩ = ⟨chainHeap fs tf, d⟩
      simp [markDamaged, hd3, hg, pubFrame]
    · exact ⟨true, hchain d hd⟩

/-! ## The invariant of the interleaved system -/

theorem sysInv_sampler (parts : List (List Byte)) (fs : List (List Byte × Bool)) (tf : Bool)
    (pos : Nat) (y : Sys) (h : SysInv parts fs tf pos y) :
    SysInv parts fs tf pos ⟨statistics y.state, y.producer, y.client⟩ := by
  obtain ⟨h1, h2, h3, h4, h5, h6, h7⟩ := h
  exact ⟨h1, h2, h3, h4, h5, h6, h7⟩

theorem sysInv_marker (parts : List (List Byte)) (fs : List (List Byte × Bool)) (tf : Bool)
    (pos : Nat) (y : Sys) (h : SysInv parts fs tf pos y) :
    ∃ tf1 : Bool, SysInv parts fs tf1 pos ⟨markDamaged y.state, y.producer, y.client⟩ := by
  obtain ⟨⟨heap, d⟩, ⟨cur, up⟩, c⟩ := y
  obtain ⟨h1, h2, h3, h4, h5, h6, h7⟩ := h
  simp only at h1 h2 h3 h4 h5 h6 h7
  subst h1
  obtain ⟨tf1, hm⟩ := markDamaged_mid fs tf cur d h2 (fun data hc => (h3 data 3 hc).2 rfl)
  refine ⟨tf1, ?_⟩
  rw [hm]
  exact ⟨rfl, h2, h3, h4, h5, h6, h7⟩

theorem sysInv_consumer (ifd : Int) (hifd : ¬ 0 < ifd) (parts : List (List Byte))
    (fs : List (List Byte × Bool)) (tf : Bool) (pos : Nat) (y : Sys)
    (h : SysInv parts fs tf pos y) :
    ∃ (c1 : Consumer) (pos1 : Nat), consumerStep ifd y.state y.client = some c1 ∧
      SysInv parts fs tf pos1 ⟨y.state, y.producer, c1⟩ ∧ pos ≤ pos1 ∧
      (pos < fs.length → pos1 = pos + 1) := by
  obtain ⟨⟨heap, d⟩, ⟨cur, up⟩, ⟨fr, out⟩⟩ := y
  obtain ⟨h1, h2, h3, h4, h5, h6, h7⟩ := h
  simp only at h1 h2 h3 h4 h5 h6 h7
  subst h1 h5 h7
  rcases Nat.lt_or_ge pos fs.length with hlt | hge
  · obtain ⟨x, hx⟩ := getElem?_of_lt fs pos hlt
    refine ⟨_, pos + 1,
      consumerStep_pub ifd hifd fs _ pos x hx (midHeap_get_lt fs tf cur pos x hx), ?_,
      Nat.le_succ _, fun _ => rfl⟩
    exact ⟨rfl, h2, h3, h4, rfl, hlt, rfl⟩
  · have hpe : pos = fs.length := by omega
    subst hpe
    obtain ⟨f, hf, hc⟩ := midHeap_get_last fs tf cur
    refine ⟨_, fs.length, consumerStep_incomplete ifd _ _ fs.length f rfl hf hc, ?_,
      le_refl _, fun hl => absurd hl (lt_irrefl _)⟩
    exact ⟨rfl, h2, h3, h4, rfl, le_refl _, rfl⟩

theorem cur_bound (data : List Byte) (k : Nat) (fs : List (List Byte × Bool)) (hk : k ≤ 6)
    (h3 : k = 3 → fs ≠ []) :
    ∀ (data1 : List Byte) (k1 : Nat),
      (some (data, k) : Option (List Byte × Nat)) = some (data1, k1) →
        k1 ≤ 6 ∧ (k1 = 3 → fs ≠ []) := by
  intro data1 k1 hc
  cases hc
  exact ⟨hk, h3⟩

theorem sysInv_producer (parts : List (List Byte)) (fs : List (List Byte × Bool)) (tf : Bool)
    (pos : Nat) (y : Sys) (h : SysInv parts fs tf pos y) :
    ∃ (s1 : State) (pr1 : Producer) (ext : List (List Byte × Bool)) (tf1 : Bool),
      producerStep y.state y.producer = some (s1, pr1) ∧
      SysInv parts (fs ++ ext) tf1 pos ⟨s1, pr1, y.client⟩ ∧
      workLeft pr1 = workLeft y.producer - 1 := by
  obtain ⟨⟨heap, d⟩, ⟨cur, up⟩, ⟨fr, out⟩⟩ := y
  obtain ⟨h1, h2, h3, h4, h5, h6, h7⟩ := h
  simp only at h1 h2 h3 h4 h5 h6 h7
  subst h1 h5 h7
  rcases cur with _ | ⟨data, k⟩
  · rcases up with _ | ⟨data, rest⟩
    · refine ⟨⟨chainHeap fs tf, d⟩, ⟨none, []⟩, [], tf, rfl, ?_, rfl⟩
      rw [List.append_nil]
      exact ⟨rfl, h2, h3, h4, rfl, h6, rfl⟩
    · refine ⟨⟨chainHeap fs tf, d⟩, ⟨some (data, 0), rest⟩, [], tf, rfl, ?_, ?_⟩
      · rw [List.append_nil]
        exact ⟨rfl, h2, cur_bound data 0 fs (by omega) (fun h0 => by omega),
          by simpa [curPart] using h4, rfl, h6, rfl⟩
      · show 8 * rest.length + (7 - 0) = 8 * (rest.length + 1) + 0 - 1
        omega
  · have hk := (h3 data k rfl).1
    rcases k with _ | _ | _ | _ | _ | _ | _ | k
    · have hd : d.Frame = some fs.length := h2
      have hstep : producerStep ⟨chainHeap fs tf, d⟩ ⟨some (data, 0), up⟩ =
          some (⟨pubFrames 0 fs ++ [⟨0, false, tf, [], 0, some (fs.length + 1)⟩, Frame.zero],
            d⟩, ⟨some (data, 1), up⟩) := by
        simp [producerStep, ingestLines, line90_chain fs tf d hd]
      refine ⟨_, _, [], tf, hstep, ?_, ?_⟩
      · rw [List.append_nil]
        exact ⟨rfl, hd, cur_bound data 1 fs (by omega) (fun h0 => by omega), h4, rfl, h6, rfl⟩
      · show 8 * up.length + (7 - 1) = 8 * up.length + (7 - 0) - 1
        omega
    · have hd : d.Frame = some fs.length := h2
      have hstep : producerStep
          ⟨pubFrames 0 fs ++ [⟨0, false, tf, [], 0, some (fs.length + 1)⟩, Frame.zero], d⟩
          ⟨some (data, 1), up⟩ =
          some (⟨pubFrames 0 fs ++ [⟨0, false, tf, data, 0, some (fs.length + 1)⟩, Frame.zero],
            d⟩, ⟨some (data, 2), up⟩) := by
        simp [producerStep, ingestLines, line91_mid fs tf data d hd]
      refine ⟨_, _, [], tf, hstep, ?_, ?_⟩
      · rw [List.append_nil]
        exact ⟨rfl, hd, cur_bound data 2 fs (by omega) (fun h0 => by omega), h4, rfl, h6, rfl⟩
      · show 8 * up.length + (7 - 2) = 8 * up.length + (7 - 1) - 1
        omega
    · have hd : d.Frame = some fs.length := h2
      have hstep : producerStep
          ⟨pubFrames 0 fs ++ [⟨0, false, tf, data, 0, some (fs.length + 1)⟩, Frame.zero], d⟩
          ⟨some (data, 2), up⟩ =
          some (⟨chainHeap (fs ++ [(data, tf)]) false, d⟩, ⟨some (data, 3), up⟩) := by
        simp [producerStep, ingestLines, line92_mid fs tf data d hd]
      refine ⟨_, _, [(data, tf)], false, hstep, ?_, ?_⟩
      · refine ⟨rfl, ?_, cur_bound data 3 _ (by omega) (fun _ => by simp), ?_, rfl, ?_, ?_⟩
        · show d.Frame = some ((fs ++ [(data, tf)]).length - 1)
          rw [hd]
          simp
        · have h4a : List.map Prod.fst fs ++ [data] ++ up = parts := h4
          rw [← h4a]
          simp [curPart]
        · simp only [List.length_append]
          omega
        · exact (expectedOut_take_append fs [(data, tf)] pos h6).symm
      · show 8 * up.length + (7 - 3) = 8 * up.length + (7 - 2) - 1
        omega
    · have hne : fs ≠ [] := (h3 data 3 rfl).2 rfl
      have hd : d.Frame = some (fs.length - 1) := h2
      have hstep : producerStep ⟨chainHeap fs tf, d⟩ ⟨some (data, 3), up⟩ =
          some (⟨chainHeap fs tf, { d with Frame := some fs.length }⟩,
            ⟨some (data, 4), up⟩) := by
        simp [producerStep, ingestLines, line93_chain fs tf d hne hd]
      refine ⟨_, _, [], tf, hstep, ?_, ?_⟩
      · rw [List.append_nil]
        exact ⟨rfl, rfl, cur_bound data 4 fs (by omega) (fun h0 => by omega), h4, rfl, h6, rfl⟩
      · show 8 * up.length + (7 - 4) = 8 * up.length + (7 - 3) - 1
        omega
    · have hd : d.Frame = some fs.length := h2
      have hstep : producerStep ⟨chainHeap fs tf, d⟩ ⟨some (data, 4), up⟩ =
          some (⟨chainHeap fs tf, { d with RxFrames := d.RxFrames + 1 }⟩,
            ⟨some (data, 5), up⟩) := by
        simp [producerStep, ingestLines, line94]
      refine ⟨_, _, [], tf, hstep, ?_, ?_⟩
      · rw [List.append_nil]
        exact ⟨rfl, hd, cur_bound data 5 fs (by omega) (fun h0 => by omega), h4, rfl, h6, rfl⟩
      · show 8 * up.length + (7 - 5) = 8 * up.length + (7 - 4) - 1
        omega
    · have hd : d.Frame = some fs.length := h2
      have hstep : producerStep ⟨chainHeap fs tf, d⟩ ⟨some (data, 5), up⟩ =
          some (⟨chainHeap fs tf, { d with RxBytesLast := (data.length : Int) }⟩,
            ⟨some (data, 6), up⟩) := by
        simp [producerStep, ingestLines, line95]
      refine ⟨_, _, [], tf, hstep, ?_, ?_⟩
      · rw [List.append_nil]
        exact ⟨rfl, hd, cur_bound data 6 fs (by omega) (fun h0 => by omega), h4, rfl, h6, rfl⟩
      · show 8 * up.length + (7 - 6) = 8 * up.length + (7 - 5) - 1
        omega
    · have hd : d.Frame = some fs.length := h2
      have hstep : producerStep ⟨chainHeap fs tf, d⟩ ⟨some (data, 6), up⟩ =
          some (⟨chainHeap fs tf, { d with RxBytes := d.RxBytes + d.RxBytesLast }⟩,
            ⟨none, up⟩) := by
        simp [producerStep, ingestLines, line96]
      refine ⟨_, _, [], tf, hstep, ?_, ?_⟩
      · rw [List.append_nil]
        refine ⟨rfl, hd, ?_, h4, rfl, h6, rfl⟩
        intro data1 k1 hc
        cases hc
      · show 8 * up.length + 0 = 8 * up.length + (7 - 6) - 1
        omega
    · omega

theorem sysRun_append (ifd : Int) (a b : List Thread) (y : Sys) :
    sysRun ifd (a ++ b) y = (sysRun ifd a y).bind (sysRun ifd b) := by
  induction a generalizing y with
  | nil => rfl
  | cons t a ih =>
    simp only [List.cons_append, sysRun]
    cases sysStep ifd t y with
    | none => rfl
    | some y1 => simpa using ih y1

/-- Every move keeps the invariant: the published frames only grow at the end, the consumer
only moves forward, the work left to the producer does not grow. -/
theorem sysStep_inv (ifd : Int) (hifd : ¬ 0 < ifd) (parts : List (List Byte)) (t : Thread)
    (y : Sys) (fs : List (List Byte × Bool)) (tf : Bool) (pos : Nat)
    (h : SysInv parts fs tf pos y) :
    ∃ (y1 : Sys) (ext : List (List Byte × Bool)) (tf1 : Bool) (pos1 : Nat),
      sysStep ifd t y = some y1 ∧ SysInv parts (fs ++ ext) tf1 pos1 y1 ∧
      workLeft y1.producer ≤ workLeft y.producer := by
  cases t with
  | producer =>
    obtain ⟨s1, pr1, ext, tf1, h1, h2, h3⟩ := sysInv_producer parts fs tf pos y h
    refine ⟨⟨s1, pr1, y.client⟩, ext, tf1, pos, ?_, h2, ?_⟩
    · simp [sysStep, h1]
    · show workLeft pr1 ≤ workLeft y.producer
      omega
  | sampler =>
    refine ⟨_, [], tf, pos, rfl, ?_, le_refl _⟩
    rw [List.append_nil]
    exact sysInv_sampler parts fs tf pos y h
  | marker =>
    obtain ⟨tf1, h1⟩ := sysInv_marker parts fs tf pos y h
    refine ⟨_, [], tf1, pos, rfl, ?_, le_refl _⟩
    rw [List.append_nil]
    exact h1
  | consumer =>
    obtain ⟨c1, pos1, h1, h2, -, -⟩ := sysInv_consumer ifd hifd parts fs tf pos y h
    refine ⟨⟨y.state, y.producer, c1⟩, [], tf, pos1, ?_, ?_, le_refl _⟩
    · simp [sysStep, h1]
    · rw [List.append_nil]
      exact h2

/-- Every schedule runs to the end without a nil dereference and keeps the invariant. -/
theorem sysRun_inv (ifd : Int) (hifd : ¬ 0 < ifd) (parts : List (List Byte))
    (sched : List Thread) :
    ∀ (y : Sys) (fs : List (List Byte × Bool)) (tf : Bool) (pos : Nat),
      SysInv parts fs tf pos y →
      ∃ (y1 : Sys) (ext : List (List Byte × Bool)) (tf1 : Bool) (pos1 : Nat),
        sysRun ifd sched y = some y1 ∧ SysInv parts (fs ++ ext) tf1 pos1 y1 ∧
        workLeft y1.producer ≤ workLeft y.producer := by
  induction sched with
  | nil =>
    intro y fs tf pos h
    exact ⟨y, [], tf, pos, rfl, by rw [List.append_nil]; exact h, le_refl _⟩
  | cons t ts ih =>
    intro y fs tf pos h
    obtain ⟨y1, ext, tf1, pos1, h1, h2, h3⟩ := sysStep_inv ifd hifd parts t y fs tf pos h
    obtain ⟨y2, ext2, tf2, pos2, g1, g2, g3⟩ := ih y1 (fs ++ ext) tf1 pos1 h2
    refine ⟨y2, ext ++ ext2, tf2, pos2, ?_, ?_, by omega⟩
    · simp only [sysRun, h1, Option.some_bind]
      exact g1
    · rw [← List.append_assoc]
      exact g2

/-- The producer, given as many moves as it has work left, uses up the upstream. -/
theorem sysRun_producer (ifd : Int) (parts : List (List Byte)) :
    ∀ (m : Nat) (y : Sys) (fs : List (List Byte × Bool)) (tf : Bool) (pos : Nat),
      SysInv parts fs tf pos y → workLeft y.producer ≤ m →
      ∃ (y1 : Sys) (ext : List (List Byte × Bool)) (tf1 : Bool),
        sysRun ifd (List.replicate m Thread.producer) y = some y1 ∧
        SysInv parts (fs ++ ext) tf1 pos y1 ∧ workLeft y1.producer = 0 := by
  intro m
  induction m with
  | zero =>
    intro y fs tf pos h hw
    exact ⟨y, [], tf, rfl, by rw [List.append_nil]; exact h, by omega⟩
  | succ m ih =>
    intro y fs tf pos h hw
    obtain ⟨s1, pr1, ext, tf1, h1, h2, h3⟩ := sysInv_producer parts fs tf pos y h
    obtain ⟨y2, ext2, tf2, g1, g2, g3⟩ := ih ⟨s1, pr1, y.client⟩ (fs ++ ext) tf1 pos h2
      (by show workLeft pr1 ≤ m; omega)
    refine ⟨y2, ext ++ ext2, tf2, ?_, ?_, g3⟩
    · simp only [List.replicate_succ, sysRun, sysStep, h1, Option.map_some', Option.some_bind]
      exact g1
    · rw [← List.append_assoc]
      exact g2

/-- The consumer, given as many polls as there are published frames, reaches the frame being
filled; the shared state and the producer are as they were. -/
theorem sysRun_consumer (ifd : Int) (hifd : ¬ 0 < ifd) (parts : List (List Byte))
    (fs : List (List Byte × Bool)) (tf : Bool) :
    ∀ (k : Nat) (y : Sys) (pos : Nat), SysInv parts fs tf pos y → fs.length ≤ pos + k →
      ∃ y1 : Sys, sysRun ifd (List.replicate k Thread.consumer) y = some y1 ∧
        SysInv parts fs tf fs.length y1 ∧ y1.state = y.state ∧ y1.producer = y.producer := by
  intro k
  induction k with
  | zero =>
    intro y pos h hk
    have hp : pos ≤ fs.length := h.2.2.2.2.2.1
    have hpe : pos = fs.length := by omega
    subst hpe
    exact ⟨y, rfl, h, rfl, rfl⟩
  | succ k ih =>
    intro y pos h hk
    obtain ⟨c1, pos1, h1, h2, h3, h4⟩ := sysInv_consumer ifd hifd parts fs tf pos y h
    have hk1 : fs.length ≤ pos1 + k := by
      rcases Nat.lt_or_ge pos fs.length with hlt | hge
      · rw [h4 hlt]; omega
      · omega
    obtain ⟨y2, g1, g2, g3, g4⟩ := ih ⟨y.state, y.producer, c1⟩ pos1 h2 hk1
    refine ⟨y2, ?_, g2, g3, g4⟩
    simp only [List.replicate_succ, sysRun, sysStep, h1, Option.map_some', Option.some_bind]
    exact g1

/-! ## The bytes written, against the specification -/

/-- The write of the stream loop is the part the specification names. -/
theorem partBytes_eq_claimedPart (data : List Byte) : partBytes data = claimedPart data := by
  simp [partBytes, claimedPart, bytesOf]

theorem claimedOutput_pubFrames (i : Nat) (fs : List (List Byte × Bool)) :
    claimedOutput (pubFrames i fs) = expectedOut fs := by
  induction fs generalizing i with
  | nil => rfl
  | cons x xs ih =>
    obtain ⟨data, dmg⟩ := x
    have h := ih (i + 1)
    unfold claimedOutput at h
    cases dmg <;>
      simp [claimedOutput, pubFrames, pubFrame, expectedOut, partBytes_eq_claimedPart, h]

theorem pubFrames_filter_complete (i : Nat) (fs : List (List Byte × Bool)) :
    (pubFrames i fs).filter (fun f => f.Complete) = pubFrames i fs := by
  induction fs generalizing i with
  | nil => rfl
  | cons x xs ih => simp [pubFrames, pubFrame, ih]

theorem pubFrames_map_fst (i : Nat) (fs : List (List Byte × Bool)) :
    (pubFrames i fs).map Frame.Data = fs.map Prod.fst := by
  induction fs generalizing i with
  | nil => rfl
  | cons x xs ih => simp [pubFrames, pubFrame, ih]

/-- The complete frames on the chain of a chain-shaped heap are the published ones. -/
theorem publishedFrames_chainHeap (fs : List (List Byte × Bool)) (tf : Bool) (d : Device) :
    publishedFrames ⟨chainHeap fs tf, d⟩ (some 0) = pubFrames 0 fs := by
  have hw := chainFrom_chainHeap fs tf (chainHeap fs tf).length 0 (Nat.zero_le _)
    (by simp [chainHeap_length])
  unfold publishedFrames
  rw [hw]
  simp [chainHeap, pubFrames_filter_complete, tailFrame]

theorem workLeft_zero (pr : Producer) (h : workLeft pr = 0)
    (hb : ∀ (data : List Byte) (k : Nat), pr.cur = some (data, k) → k ≤ 6) :
    pr.cur = none ∧ pr.upstream = [] := by
  obtain ⟨cur, up⟩ := pr
  rcases cur with _ | ⟨data, k⟩
  · have h1 : 8 * up.length + 0 = 0 := h
    have h2 : up.length = 0 := by omega
    exact ⟨rfl, List.length_eq_zero.mp h2⟩
  · have hk := hb data k rfl
    have h1 : 8 * up.length + (7 - k) = 0 := h
    omega

/-- C1: a consumer in sequential mode (`fps` absent or `0`) whose cursor is the
`device.Frame` of the start state, before any part is appended. For every list of parts the
upstream delivers and every schedule of statements of `readStream`, sampler iterations,
markings of the frame being filled as damaged, and polls of the consumer: the run never
dereferences nil; and once the producer has run its remaining statements and the consumer
has polled as often as there are parts, the complete frames of the chain hold exactly the
parts in order, and the bytes written are exactly the concatenation, in chain order over the
frames that are not damaged, of `--myboundary` CR LF `Content-Type: image/jpeg` CR LF CR LF,
the payload, CR LF; the cursor is then on the frame being filled. What had been written at
any earlier moment is an initial segment of that output. -/
theorem sequential_consumer_output (url : GoString) (q : Option GoString)
    (hq : q = none ∨ q = some (bytesOf "0")) (parts : List (List Byte))
    (sched : List Thread) (k : Nat) (hk : parts.length ≤ k) :
    frameMjpg (initState url) = Sum.inr ⟨(initState url).device.Frame, []⟩ ∧
    ∃ y0 y : Sys,
      sysRun (queryIfd q) sched
          ⟨initState url, ⟨none, parts⟩, ⟨(initState url).device.Frame, []⟩⟩ = some y0 ∧
      sysRun (queryIfd q)
          (sched ++ (List.replicate (8 * parts.length) Thread.producer ++
            List.replicate k Thread.consumer))
          ⟨initState url, ⟨none, parts⟩, ⟨(initState url).device.Frame, []⟩⟩ = some y ∧
      (publishedFrames y.state (initState url).device.Frame).map Frame.Data = parts ∧
      y.client.out = claimedOutput (publishedFrames y.state (initState url).device.Frame) ∧
      y.client.frame = y.state.device.Frame ∧
      y0.client.out <+: y.client.out := by
  have hifd : ¬ 0 < queryIfd q := by rw [queryIfd_sequential q hq]; decide
  have hstart : SysInv parts [] false 0
      ⟨initState url, ⟨none, parts⟩, ⟨(initState url).device.Frame, []⟩⟩ := by
    refine ⟨rfl, rfl, ?_, rfl, rfl, le_refl _, rfl⟩
    intro data k hc
    cases hc
  obtain ⟨y0, ext0, tf0, pos0, r0, i0, w0⟩ :=
    sysRun_inv (queryIfd q) hifd parts sched _ [] false 0 hstart
  have hw : workLeft y0.producer ≤ 8 * parts.length := w0
  obtain ⟨y1, ext1, tf1, r1, i1, w1⟩ :=
    sysRun_producer (queryIfd q) parts (8 * parts.length) y0 ([] ++ ext0) tf0 pos0 i0 hw
  obtain ⟨hcur, hup⟩ := workLeft_zero y1.producer w1 (fun data k hc => (i1.2.2.1 data k hc).1)
  have hparts : (([] ++ ext0) ++ ext1).map Prod.fst = parts := by
    have h4 := i1.2.2.2.1
    rw [hcur, hup] at h4
    simpa [curPart] using h4
  have hlen : (([] ++ ext0) ++ ext1).length ≤ pos0 + k := by
    have hl : (([] ++ ext0) ++ ext1).length = parts.length := by
      rw [← hparts, List.length_map]
    omega
  obtain ⟨y2, r2, i2, hs, hp⟩ :=
    sysRun_consumer (queryIfd q) hifd parts (([] ++ ext0) ++ ext1) tf1 k y1 pos0 i1 hlen
  obtain ⟨j1, j2, -, -, j5, -, j7⟩ := i2
  rw [hp, hcur] at j1 j2
  have hheap : y2.state = ⟨chainHeap (([] ++ ext0) ++ ext1) tf1, y2.state.device⟩ := by
    cases hst : y2.state with
    | mk heap d =>
      rw [hst] at j1
      simp only at j1
      rw [j1]
      rfl
  have hpub : publishedFrames y2.state (initState url).device.Frame =
      pubFrames 0 (([] ++ ext0) ++ ext1) := by
    rw [hheap]
    exact publishedFrames_chainHeap _ tf1 _
  have hout : y2.client.out = expectedOut (([] ++ ext0) ++ ext1) := by
    rw [j7, List.take_length]
  refine ⟨rfl, y0, y2, r0, ?_, ?_, ?_, ?_, ?_⟩
  · rw [sysRun_append, r0, Option.some_bind, sysRun_append, r1, Option.some_bind]
    exact r2
  · rw [hpub, pubFrames_map_fst]
    exact hparts
  · rw [hpub, claimedOutput_pubFrames]
    exact hout
  · rw [j5, j2]
    rfl
  · rw [hout, i0.2.2.2.2.2.2]
    refine ⟨expectedOut (([] ++ ext0).drop pos0 ++ ext1), ?_⟩
    rw [← expectedOut_append, ← List.append_assoc, List.take_append_drop]

/-- C1, at the parts `[1]`, `[2]`, `[3]`: the producer ingests the first part, the frame then
being filled is marked damaged and the consumer polls once; after the rest of the run the
client has received the first and the third part, byte for byte, and nothing of the second. -/
theorem sequential_consumer_output_witness :
    ∃ y : Sys,
      sysRun (queryIfd none)
          ((List.replicate 8 Thread.producer ++ [Thread.marker, Thread.consumer]) ++
            (List.replicate (8 * 3) Thread.producer ++ List.replicate 3 Thread.consumer))
          ⟨initState [], ⟨none, [[1], [2], [3]]⟩, ⟨(initState []).device.Frame, []⟩⟩ = some y ∧
      (publishedFrames y.state (initState []).device.Frame).map
          (fun f => (f.Data, f.Damaged)) = [([1], false), ([2], true), ([3], false)] ∧
      y.client.out =
        [45, 45, 109, 121, 98, 111, 117, 110, 100, 97, 114, 121, 13, 10,
         67, 111, 110, 116, 101, 110, 116, 45, 84, 121, 112, 101, 58, 32,
         105, 109, 97, 103, 101, 47, 106, 112, 101, 103, 13, 10, 13, 10, 1, 13, 10,
         45, 45, 109, 121, 98, 111, 117, 110, 100, 97, 114, 121, 13, 10,
         67, 111, 110, 116, 101, 110, 116, 45, 84, 121, 112, 101, 58, 32,
         105, 109, 97, 103, 101, 47, 106, 112, 101, 103, 13, 10, 13, 10, 3, 13, 10] := by
  obtain ⟨-, y0, y, -, h2, -, -, -, -⟩ := sequential_consumer_output [] none (Or.inl rfl)
    [[1], [2], [3]] (List.replicate 8 Thread.producer ++ [Thread.marker, Thread.consumer]) 3
    (by decide)
  have hflags : (sysRun (queryIfd none)
      ((List.replicate 8 Thread.producer ++ [Thread.marker, Thread.consumer]) ++
        (List.replicate (8 * 3) Thread.producer ++ List.replicate 3 Thread.consumer))
      ⟨initState [], ⟨none, [[1], [2], [3]]⟩, ⟨(initState []).device.Frame, []⟩⟩).map
      (fun z => (publishedFrames z.state (initState []).device.Frame).map
        (fun f => (f.Data, f.Damaged))) =
      some [([1], false), ([2], true), ([3], false)] := by
    decide!
  have h2a : sysRun (queryIfd none)
      ((List.replicate 8 Thread.producer ++ [Thread.marker, Thread.consumer]) ++
        (List.replicate (8 * 3) Thread.producer ++ List.replicate 3 Thread.consumer))
      ⟨initState [], ⟨none, [[1], [2], [3]]⟩, ⟨(initState []).device.Frame, []⟩⟩ = some y := h2
  have hout : (sysRun (queryIfd none)
      ((List.replicate 8 Thread.producer ++ [Thread.marker, Thread.consumer]) ++
        (List.replicate (8 * 3) Thread.producer ++ List.replicate 3 Thread.consumer))
      ⟨initState [], ⟨none, [[1], [2], [3]]⟩, ⟨(initState []).device.Frame, []⟩⟩).map
      (fun z => z.client.out) =
      some [45, 45, 109, 121, 98, 111, 117, 110, 100, 97, 114, 121, 13, 10,
         67, 111, 110, 116, 101, 110, 116, 45, 84, 121, 112, 101, 58, 32,
         105, 109, 97, 103, 101, 47, 106, 112, 101, 103, 13, 10, 13, 10, 1, 13, 10,
         45, 45, 109, 121, 98, 111, 117, 110, 100, 97, 114, 121, 13, 10,
         67, 111, 110, 116, 101, 110, 116, 45, 84, 121, 112, 101, 58, 32,
         105, 109, 97, 103, 101, 47, 106, 112, 101, 103, 13, 10, 13, 10, 3, 13, 10] := by
    decide!
  rw [h2a, Option.map_some', Option.some.injEq] at hflags hout
  exact ⟨y, h2a, hflags, hout⟩

/-! ## The mode of a stream request -/

/-- The sign of `ifd` for a parsed `fps > 0`: positive up to 1000, zero above. -/
theorem ifdOf_pos_iff (fps : Int) (hfps : 0 < fps) : 0 < ifdOf fps true ↔ fps ≤ 1000 := by
  have hc : 0 < fps ∧ true = true := ⟨hfps, rfl⟩
  simp only [ifdOf, hc, if_true]
  rw [Int.tdiv_eq_ediv (by decide : (0 : Int) ≤ 1000) (le_of_lt hfps)]
  constructor
  · intro h
    by_contra hgt
    have hz : (1000 : Int) / fps = 0 := Int.ediv_eq_zero_of_lt (by decide) (by omega)
    rw [hz] at h
    simp at h
  · intro h
    have h1 : (1 : Int) ≤ 1000 / fps := Int.le_ediv_of_mul_le hfps (by omega)
    exact Int.mul_pos (by omega) (by decide)

/-- C3, on the code: the request `fps=1001` gets `ifd = 0` (`1000/1001` is 0), so the stream
loop takes the branch `frame = frame.Next`: on a chain of two published frames the cursor
moves from frame 0 to frame 1, while the request `fps=1000` moves it to `device.Frame`,
frame 2. -/
theorem fps_1001_follows_next :
    queryIfd (some (bytesOf "1001")) = 0 ∧
    (exec [Step.ingest [1], Step.ingest [2]] (initState [])).bind
        (fun s => consumerStep (queryIfd (some (bytesOf "1001"))) s ⟨some 0, []⟩) =
      some ⟨some 1, partBytes [1]⟩ ∧
    (exec [Step.ingest [1], Step.ingest [2]] (initState [])).bind
        (fun s => consumerStep (queryIfd (some (bytesOf "1000"))) s ⟨some 0, []⟩) =
      some ⟨some 2, partBytes [1]⟩ := by
  decide

/-! ## The snapshot and the start state -/

/-- C4, on the code: with one frame published and the frame being filled never completing,
`/frame.jpeg` answers after its 1000 polls with status 200, content type `image/jpeg` and
an empty body: the error returned by `waitComplete(1000)` is dropped. -/
theorem frameJpeg_after_timeout :
    (exec [Step.ingest [7, 8, 9]] (initState [])).map (fun s => frameJpeg (fun _ => s) 1001) =
      some (Response.data 200 (bytesOf "image/jpeg") []) := by
  have h : exec [Step.ingest [7, 8, 9]] (initState []) =
      some ⟨chainHeap [([7, 8, 9], false)] false, ⟨some 1, [], 3, 3, 1, 0, 0, 0, 0⟩⟩ := by
    decide
  rw [h, Option.map_some']
  rw [frameJpeg_timeout
    (fun _ => ⟨chainHeap [([7, 8, 9], false)] false, ⟨some 1, [], 3, 3, 1, 0, 0, 0, 0⟩⟩) 1 rfl
    (fun _ _ => rfl) 1001 (by decide)]
  rfl

/-- C5, on the code: in the start state `device.Frame` is the empty frame built by `main`,
not nil. `/frame.mjpg` passes the nil check and starts the stream on that frame;
`/frame.jpeg`, with no part arriving during its 1000 polls, answers 200 `image/jpeg` with an
empty body. Neither sends 404. -/
theorem start_state_no_404 (url : GoString) :
    (initState url).device.Frame = some 0 ∧
    frameMjpg (initState url) = Sum.inr ⟨some 0, []⟩ ∧
    frameJpeg (fun _ => initState url) 1001 =
      Response.data 200 (bytesOf "image/jpeg") [] := by
  refine ⟨rfl, rfl, ?_⟩
  rw [frameJpeg_timeout (fun _ => initState url) 0 rfl (fun _ _ => rfl) 1001 (by decide)]
  rfl

/-! ## waitComplete -/

/-- C6: `waitComplete(ms)` over the values of `Complete` seen at its polls. For `ms > 0`: if
the first `ms` polls all see `false` it returns the timeout error after exactly `ms` sleeps;
if poll `k < ms` is the first to see `true` it returns nil after exactly `k` sleeps. For
`ms = 0`: it never returns the timeout error, however many polls; it returns nil at the
first poll that sees `true`; and it is still polling after any number of polls that all see
`false`. -/
theorem waitComplete_spec (obs : Nat → Bool) (ms : Int) :
    (0 < ms → (∀ i : Nat, (i : Int) < ms → obs i = false) →
      ∀ fuel : Nat, ms.toNat < fuel → waitComplete obs ms fuel = .timedOut ms.toNat) ∧
    (0 < ms → ∀ k : Nat, (k : Int) < ms → obs k = true → (∀ j : Nat, j < k → obs j = false) →
      ∀ fuel : Nat, k < fuel → waitComplete obs ms fuel = .returnedNil k) ∧
    (ms = 0 →
      (∀ fuel n : Nat, waitComplete obs ms fuel ≠ .timedOut n) ∧
      (∀ k : Nat, obs k = true → (∀ j : Nat, j < k → obs j = false) →
        ∀ fuel : Nat, k < fuel → waitComplete obs ms fuel = .returnedNil k) ∧
      ((∀ j : Nat, obs j = false) → ∀ fuel : Nat, waitComplete obs ms fuel = .stillWaiting)) := by
  refine ⟨?_, ?_, ?_⟩
  · intro hms hobs fuel hf
    exact waitLoop_timeout obs ms hms fuel 0 (by omega) (fun j _ hj => hobs j hj)
      (by simpa using hf)
  · intro _ k hk hobs hfalse fuel hf
    exact waitLoop_found obs ms k (Or.inl hk) hobs fuel 0 (Nat.zero_le _)
      (fun j _ hj => hfalse j hj) (by simpa using hf)
  · intro hms
    subst hms
    refine ⟨fun fuel n => waitLoop_zero_ne_timedOut obs fuel 0 n, ?_, ?_⟩
    · intro k hobs hfalse fuel hf
      exact waitLoop_found obs 0 k (Or.inr rfl) hobs fuel 0 (Nat.zero_le _)
        (fun j _ hj => hfalse j hj) (by simpa using hf)
    · intro hobs fuel
      exact waitLoop_zero_blocks obs hobs fuel 0

/-- C6, at a frame that never completes and `ms = 3`: the timeout error after 3 sleeps; at a
frame complete from poll 2 on: nil after 2 sleeps with `ms = 3` and with `ms = 0`. -/
theorem waitComplete_spec_witness :
    waitComplete (fun _ => false) 3 10 = .timedOut 3 ∧
    waitComplete (fun i => decide (2 ≤ i)) 3 10 = .returnedNil 2 ∧
    waitComplete (fun i => decide (2 ≤ i)) 0 10 = .returnedNil 2 :=
  ⟨(waitComplete_spec (fun _ => false) 3).1 (by decide) (fun _ _ => rfl) 10 (by decide),
   (waitComplete_spec (fun i => decide (2 ≤ i)) 3).2.1 (by decide) 2 (by decide) (by decide)
     (fun j hj => by simp; omega) 10 (by decide),
   ((waitComplete_spec (fun i => decide (2 ≤ i)) 0).2.2 rfl).2.1 2 (by decide)
     (fun j hj => by simp; omega) 10 (by decide)⟩

/-! ## The start of readStream -/

/-- The loop of `readStream` on a body of whole parts ending in `io.EOF` runs the
ingestion steps and returns. -/
theorem readLoop_parts (parts : List (List Byte)) (s s1 : State)
    (h : exec (parts.map Step.ingest) s = some s1) :
    readLoop (parts.map PartEvent.part) s = (Exit.returned, s1) := by
  induction parts generalizing s with
  | nil =>
    simp only [List.map_nil, exec, Option.some.injEq] at h
    subst h
    rfl
  | cons p ps ih =>
    simp only [List.map_cons, exec, execStep] at h
    simp only [List.map_cons, readLoop]
    cases hi : ingest p s with
    | none => rw [hi] at h; cases h
    | some s2 =>
      rw [hi] at h
      exact ih s2 h

/-- C9, as the claim states it, fails: on a response without a `Content-Type` header, and on
one with the header `multipart/`, which `mime.ParseMediaType` rejects (`mime: expected token
after slash`), `readStream` returns normally and leaves the state as it was. -/
theorem readStream_returns_counterexample :
    readStream (fun _ => none) (some ⟨[], fun _ => []⟩) (initState []) =
      (Exit.returned, initState []) ∧
    readStream (fun h => if h = bytesOf "multipart/" then none else some [])
        (some ⟨bytesOf "multipart/", fun _ => []⟩) (initState []) =
      (Exit.returned, initState []) := by
  constructor <;> decide

/-- C9, amended: on a response whose `Content-Type` header is missing or does not parse as
a media type, `readStream` returns normally without reading any part; on one whose header
parses but whose `boundary` parameter is absent or shorter than two bytes, the slice `[2:]`
panics, which ends the process. -/
theorem readStream_startup (parseMediaType : GoString → Option (List (GoString × GoString)))
    (r : Upstream) (s : State) :
    (r.contentType.length < 1 ∨ parseMediaType r.contentType = none →
      readStream parseMediaType (some r) s = (Exit.returned, s)) ∧
    (∀ params : List (GoString × GoString), 1 ≤ r.contentType.length →
      parseMediaType r.contentType = some params →
      (mapGet params (bytesOf "boundary")).length < 2 →
      readStream parseMediaType (some r) s = (Exit.panicked, s)) := by
  constructor
  · intro h
    by_cases hlen : r.contentType.length < 1
    · simp [readStream, hlen]
    · rcases h with h | h
      · exact absurd h hlen
      · simp [readStream, hlen, h]
  · intro params hlen hparse hb
    have hlen2 : ¬ r.contentType.length < 1 := by omega
    simp [readStream, hlen2, hparse, hb]

/-- C9, amended, at the header `multipart/x-mixed-replace`, which parses with no parameter,
and at `multipart/x-mixed-replace; boundary=-`, which parses with a one-byte boundary: the
slice panics. At a missing header: a plain return. -/
theorem readStream_startup_witness :
    readStream (fun _ => some []) (some ⟨bytesOf "multipart/x-mixed-replace", fun _ => []⟩)
        (initState []) = (Exit.panicked, initState []) ∧
    readStream (fun _ => some [(bytesOf "boundary", bytesOf "-")])
        (some ⟨bytesOf "multipart/x-mixed-replace; boundary=-", fun _ => []⟩)
        (initState []) = (Exit.panicked, initState []) ∧
    readStream (fun _ => some []) (some ⟨[], fun _ => []⟩) (initState []) =
      (Exit.returned, initState []) :=
  ⟨(readStream_startup (fun _ => some []) ⟨bytesOf "multipart/x-mixed-replace", fun _ => []⟩
      (initState [])).2 [] (by decide) rfl (by decide),
   (readStream_startup (fun _ => some [(bytesOf "boundary", bytesOf "-")])
      ⟨bytesOf "multipart/x-mixed-replace; boundary=-", fun _ => []⟩
      (initState [])).2 [(bytesOf "boundary", bytesOf "-")] (by decide) rfl (by decide),
   (readStream_startup (fun _ => some []) ⟨[], fun _ => []⟩ (initState [])).1
      (Or.inl (by decide))⟩

end MjpgV2c
